import Mathlib

/-!
# Verification of the sudoku puzzle engine (`src/sudoku/generateSudoku.py`)

A shallow embedding of the generator's data model and operations.

* A grid is a `List (List Nat)` (`0` = empty cell), mirroring Python's list
  of lists; Python's in-place mutation of the board is modelled by explicit
  state passing: every function that mutates the board returns the final
  board state.
* Python's unbounded recursion/loops (`solve_sudoku`, `fill_remaining`,
  the counter, the carving `while` loop) are modelled with an explicit
  fuel parameter; running out of fuel yields the "did not terminate"
  result (`(false, board)` for the solvers, `none` for the carving loop).
  All definitions are structurally recursive so that the kernel can
  evaluate them on concrete inputs.
* `random.randint(a, b)` is modelled by drawing the next value `r` from an
  abstract stream of naturals and returning `a + r % (b - a + 1)`;
  `random.shuffle` is modelled by the Fisher-Yates loop CPython uses,
  with `_randbelow(k)` modelled as `r % k`.
-/

/-- A 9x9 grid of cell values; `0` denotes an empty cell. -/
abbrev Board := List (List Nat)

/-- `board[i][j]` (the Python code only ever indexes in range on reachable
calls; out-of-range reads are modelled as 0). -/
def getCellN (b : Board) (i j : Nat) : Nat := (b.getD i []).getD j 0

/-- `board[i][j] = v` (out-of-range writes are dropped, matching that they
never happen on reachable calls). -/
def setCellN (b : Board) (i j v : Nat) : Board := b.set i ((b.getD i []).set j v)

/-- Well-formedness of a 9x9 grid: nine rows of nine cells. -/
def WF (b : Board) : Prop := b.length = 9 ∧ ∀ r ∈ b, r.length = 9

/-- `range(1, 10)`: the candidate values tried by the solvers, and also the
reference multiset for a valid row/column/box. -/
def nums1to9 : List Nat := [1, 2, 3, 4, 5, 6, 7, 8, 9]

/-- All 81 cell positions in row-major order (the scan order of
`solve_sudoku` and of the counter). -/
def posListN : List (Nat × Nat) :=
  (List.range 9).flatMap fun i => (List.range 9).map fun j => (i, j)

/-- `is_valid(board, row, col, num)` (lines 20-29): `num` must not already
occur in row `row`, in column `col`, or in the 3x3 box containing
`(row, col)`.  The source's two early-returning loops become `List.all`. -/
def is_valid (b : Board) (row col num : Nat) : Bool :=
  ((List.range 9).all fun x =>
      !(getCellN b row x == num) && !(getCellN b x col == num)) &&
  ((List.range 3).all fun i => (List.range 3).all fun j =>
      !(getCellN b (3 * (row / 3) + i) (3 * (col / 3) + j) == num))

/-- The row-major scan for the first empty cell performed at the top of
`solve_sudoku` and of the counter's `solve_count`. -/
def findEmpty (b : Board) : Option (Nat × Nat) :=
  posListN.find? fun p => getCellN b p.1 p.2 == 0

/-- The `for num in range(1, 10)` loop shared by `solve_sudoku` (lines
35-41) and `fill_remaining` (lines 70-76): try each candidate in order;
on a valid candidate write it and run the continuation `recur`; if the
continuation fails, reset the cell to `0` (`board[i][j] = 0`) and go on;
if all candidates fail, report failure with the board as it stands. -/
def tryNums (recur : Board → Bool × Board) (b : Board) (p : Nat × Nat) :
    List Nat → Bool × Board
  | [] => (false, b)
  | num :: rest =>
    if is_valid b p.1 p.2 num then
      match recur (setCellN b p.1 p.2 num) with
      | (true, b2) => (true, b2)
      | (false, b2) => tryNums recur (setCellN b2 p.1 p.2 0) p rest
    else tryNums recur b p rest

/-- `solve_sudoku(board)` (lines 31-42): scan for the first empty cell;
if none, the board is complete; otherwise backtrack over candidates.
Python's `bool` result and the board's final state are returned as a pair. -/
def solve_sudoku : Nat → Board → Bool × Board
  | 0, b => (false, b)
  | fuel + 1, b =>
    match findEmpty b with
    | none => (true, b)
    | some p => tryNums (solve_sudoku fuel) b p nums1to9

/-- The recursive `solve_count` worker of `count_solutions` (lines 86-97):
at the first empty cell, branch over every valid candidate and add up the
counts (the shared `count` accumulator, restored after each branch, ends
up holding the sum of the branch counts); a board with no empty cell
counts as one. -/
def countAux : Nat → Board → Nat
  | 0, _ => 0
  | fuel + 1, b =>
    match findEmpty b with
    | none => 1
    | some p =>
      (nums1to9.map fun num =>
        if is_valid b p.1 p.2 num then countAux fuel (setCellN b p.1 p.2 num)
        else 0).sum

/-- `count_solutions(board)` (lines 84-99): runs on a deep copy, so it is a
pure function of the board.  Fuel 82 always exceeds the number of empty
cells, so the recursion never runs out. -/
def count_solutions (b : Board) : Nat := countAux 82 b

/-- The index bookkeeping at the top of `fill_remaining` (lines 53-69):
row wrap, the diagonal-box skips, and the two `return True` exits.
`none` means the traversal is finished; `some (i, j)` is the cell the
call will fill. -/
def fillStep (i j : Nat) : Option (Nat × Nat) :=
  let ij := if 9 ≤ j ∧ i < 8 then (i + 1, 0) else (i, j)
  let i := ij.1
  let j := ij.2
  if 9 ≤ i ∧ 9 ≤ j then none
  else if i < 3 then some (i, if j < 3 then 3 else j)
  else if i < 6 then some (i, if j = i / 3 * 3 then j + 3 else j)
  else if j = 6 then (if 9 ≤ i + 1 then none else some (i + 1, 0))
  else some (i, j)

/-- `fill_remaining(board, i, j)` (lines 52-76): fill every cell outside
the three diagonal boxes, in traversal order, by backtracking. -/
def fill_remaining : Nat → Board → Nat → Nat → Bool × Board
  | 0, b, _, _ => (false, b)
  | fuel + 1, b, i, j =>
    match fillStep i j with
    | none => (true, b)
    | some q => tryNums (fun b2 => fill_remaining fuel b2 q.1 (q.2 + 1)) b q nums1to9

/-- The list of cells `fill_remaining` visits from `(i, j)`, following
exactly the bookkeeping of `fillStep`; `none` if `fuel` runs out. -/
def skipOrder : Nat → Nat → Nat → Option (List (Nat × Nat))
  | 0, _, _ => none
  | fuel + 1, i, j =>
    match fillStep i j with
    | none => some []
    | some q => (skipOrder fuel q.1 (q.2 + 1)).map (q :: ·)

/-- Backtracking over an explicit list of cells, in order.  Both
`solve_sudoku` (via the first-empty-cell scan) and `fill_remaining`
(via its traversal) are instances of this scheme. -/
def solveList : List (Nat × Nat) → Board → Bool × Board
  | [], b => (true, b)
  | p :: rest, b => tryNums (solveList rest) b p nums1to9

/-- An abstract source of randomness: a stream of naturals. -/
abbrev RStream := Nat → Nat

/-- Draw the next raw value from the stream. -/
def rNext (s : RStream) : Nat × RStream := (s 0, fun n => s (n + 1))

/-- `random.randint(lo, hi)`: an arbitrary stream value reduced into
`[lo, hi]`. -/
def randInt (lo hi : Nat) (s : RStream) : Nat × RStream :=
  let r := rNext s
  (lo + r.1 % (hi - lo + 1), r.2)

/-- Swap two positions of a list (`x[i], x[j] = x[j], x[i]`). -/
def listSwap (l : List Nat) (i j : Nat) : List Nat :=
  (l.set i (l.getD j 0)).set j (l.getD i 0)

/-- The Fisher-Yates loop of `random.shuffle`: for `i` from `n` down to 1,
swap `x[i]` with `x[r % (i+1)]`. -/
def shuffleGo : Nat → List Nat → RStream → List Nat × RStream
  | 0, l, s => (l, s)
  | i + 1, l, s =>
    let r := rNext s
    shuffleGo i (listSwap l (i + 1) (r.1 % (i + 2))) r.2

/-- `random.shuffle(nums)` on a 9-element list. -/
def shuffle (l : List Nat) (s : RStream) : List Nat × RStream := shuffleGo 8 l s

/-- Fill the 3x3 box with corner `(k, k)` from `nums` by `nums.pop()`
(lines 48-50): cell `(k+i, k+j)` receives the element popped at step
`3*i+j`, i.e. `nums[8 - (3*i + j)]`. -/
def boxPosList : List (Nat × Nat) :=
  (List.range 3).flatMap fun i => (List.range 3).map fun j => (i, j)

def fill_box (b : Board) (k : Nat) (nums : List Nat) : Board :=
  boxPosList.foldl
    (fun bb ij => setCellN bb (k + ij.1) (k + ij.2) (nums.getD (8 - (3 * ij.1 + ij.2)) 0)) b

/-- `fill_diagonal_boxes(board)` (lines 44-50): for `k in (0, 3, 6)`,
shuffle a fresh `list(range(1, 10))` and pour it into box `(k, k)`. -/
def fill_diagonal_boxes (b : Board) (s : RStream) : Board × RStream :=
  let r0 := shuffle nums1to9 s
  let b0 := fill_box b 0 r0.1
  let r1 := shuffle nums1to9 r0.2
  let b1 := fill_box b0 3 r1.1
  let r2 := shuffle nums1to9 r1.2
  (fill_box b1 6 r2.1, r2.2)

/-- `generate_complete_sudoku()` (lines 78-82): start from the empty board,
seed the diagonal boxes, run `fill_remaining(board, 0, 3)` (its boolean
result is ignored), and return the board. -/
def generate_complete_sudoku (fuel : Nat) (s : RStream) : Board × RStream :=
  let empty : Board := List.replicate 9 (List.replicate 9 0)
  let seeded := fill_diagonal_boxes empty s
  ((fill_remaining fuel seeded.1 0 3).2, seeded.2)

/-- The clue-target draw at the top of `remove_cells` (lines 102-107):
`easy` draws in 45-50, `medium` in 35-40, everything else in 25-30. -/
def pickClues (difficulty : String) (s : RStream) : Nat × RStream :=
  if difficulty = "easy" then randInt 45 50 s
  else if difficulty = "medium" then randInt 35 40 s
  else randInt 25 30 s

/-- The `while cells_to_remove > 0` loop of `remove_cells` (lines 109-118):
draw a random cell; if it is non-empty, tentatively zero it; keep the
removal only if the puzzle still has exactly one solution, otherwise
restore the backup.  `none` models the loop not terminating within
`fuel` iterations. -/
def removeLoop : Nat → Board → Nat → RStream → Option (Board × RStream)
  | fuel, b, ctr, s =>
    if ctr = 0 then some (b, s)
    else
      match fuel with
      | 0 => none
      | fuel + 1 =>
        let dr := randInt 0 8 s
        let dc := randInt 0 8 dr.2
        if getCellN b dr.1 dc.1 == 0 then removeLoop fuel b ctr dc.2
        else
          let b0 := setCellN b dr.1 dc.1 0
          if count_solutions b0 == 1 then removeLoop fuel b0 (ctr - 1) dc.2
          else removeLoop fuel b ctr dc.2

/-- `remove_cells(board, difficulty)` (lines 101-119). -/
def remove_cells (fuel : Nat) (b : Board) (difficulty : String) (s : RStream) :
    Option (Board × RStream) :=
  let cl := pickClues difficulty s
  removeLoop fuel b (81 - cl.1) cl.2

/-- `board_to_question(board)` (lines 121-122): the row-by-row list
comprehension `[[cell if cell != 0 else 0 for cell in row] for row in board]`. -/
def board_to_question (b : Board) : Board :=
  b.map fun row => row.map fun cell => if cell != 0 then cell else 0

/-- `generate_sudoku_puzzle(difficulty)` (lines 124-129): generate a
complete grid, carve a deep copy of it, and return `(question, complete)`. -/
def generate_sudoku_puzzle (fuel : Nat) (difficulty : String) (s : RStream) :
    Option ((Board × Board) × RStream) :=
  let g := generate_complete_sudoku fuel s
  match remove_cells fuel g.1 difficulty g.2 with
  | none => none
  | some (puzzle, s2) => some ((board_to_question puzzle, g.1), s2)

/-- A puzzle record `{"q": question, "a": answer, "d": difficulty}`. -/
abbrev PuzzleRecord := Board × Board × String

/-- The `for i in range(1, count+1)` loop of `generate_sudoku_set`
(lines 133-140), building the insertion-ordered mapping as a list;
`n` counts the remaining iterations and `i` is the running index. -/
def setLoop (fuel : Nat) (difficulty : String) : Nat → Nat → RStream →
    Option (List (String × PuzzleRecord) × RStream)
  | 0, _, s => some ([], s)
  | n + 1, i, s =>
    match generate_sudoku_puzzle fuel difficulty s with
    | none => none
    | some (qa, s2) =>
      match setLoop fuel difficulty n (i + 1) s2 with
      | none => none
      | some (rest, s3) =>
        some (("sdku-v1-q" ++ Nat.repr i, (qa.1, qa.2, difficulty)) :: rest, s3)

/-- `generate_sudoku_set(count, difficulty)` (lines 131-141).  `count` is a
Python int, so it is modelled as `Int`; `range(1, count+1)` runs
`count.toNat` times. -/
def generate_sudoku_set (fuel : Nat) (count : Int) (difficulty : String)
    (s : RStream) : Option (List (String × PuzzleRecord) × RStream) :=
  setLoop fuel difficulty count.toNat 1 s

/-! ## Semantic predicates about grids -/

/-- The nine values of row `i`. -/
def rowListB (b : Board) (i : Nat) : List Nat := (List.range 9).map fun j => getCellN b i j

/-- The nine values of column `j`. -/
def colListB (b : Board) (j : Nat) : List Nat := (List.range 9).map fun i => getCellN b i j

/-- The nine values of the 3x3 box with corner `(3p, 3q)`. -/
def boxListB (b : Board) (p q : Nat) : List Nat :=
  (List.range 3).flatMap fun i => (List.range 3).map fun j => getCellN b (3 * p + i) (3 * q + j)

/-- A complete valid grid: every row, column and box is a permutation of
`{1, ..., 9}`. -/
def ValidComplete (b : Board) : Prop :=
  (∀ i < 9, (rowListB b i).Perm nums1to9) ∧ (∀ j < 9, (colListB b j).Perm nums1to9) ∧
  (∀ p < 3, ∀ q < 3, (boxListB b p q).Perm nums1to9)

/-- `c` agrees with `b` on every non-empty cell of `b` (equivalently: `c`
is obtained from `b` by filling empty cells, `b` from `c` by zeroing). -/
def ExtendsB (b c : Board) : Prop :=
  ∀ i j, getCellN b i j ≠ 0 → getCellN c i j = getCellN b i j

/-- Every in-range cell is filled. -/
def CompleteB (b : Board) : Prop := ∀ i < 9, ∀ j < 9, getCellN b i j ≠ 0

/-- Two coordinates lie in the same 3x3 box. -/
def sameBoxN (i j i2 j2 : Nat) : Prop := i / 3 = i2 / 3 ∧ j / 3 = j2 / 3

/-- A (possibly partial) grid with cell values at most 9 and no clashing
non-empty cells in any row, column or box. -/
def OkBoard (b : Board) : Prop :=
  (∀ i j, getCellN b i j ≤ 9) ∧
  (∀ i j j2, j ≠ j2 → getCellN b i j ≠ 0 → getCellN b i j ≠ getCellN b i j2) ∧
  (∀ i i2 j, i ≠ i2 → getCellN b i j ≠ 0 → getCellN b i j ≠ getCellN b i2 j) ∧
  (∀ i j i2 j2, (i, j) ≠ (i2, j2) → sameBoxN i j i2 j2 → getCellN b i j ≠ 0 →
    getCellN b i j ≠ getCellN b i2 j2)

/-- The empty cells of `b`, in row-major order. -/
def emptiesOf (b : Board) : List (Nat × Nat) :=
  posListN.filter fun p => getCellN b p.1 p.2 == 0

/-- The number of empty cells of `b`. -/
def zeroCountB (b : Board) : Nat := (emptiesOf b).length

/-- The number of clues (non-empty cells) of `b`. -/
def nonZeroCount (b : Board) : Nat :=
  (posListN.filter fun p => !(getCellN b p.1 p.2 == 0)).length

/-- A grid whose non-zero cells are exactly the three diagonal boxes, each
holding a permutation of `1..9` (the state `generate_complete_sudoku`
hands to `fill_remaining`). -/
def DiagSeeded (b : Board) : Prop :=
  (∀ k < 3, (boxListB b k k).Perm nums1to9) ∧
  (∀ i < 9, ∀ j < 9, i / 3 ≠ j / 3 → getCellN b i j = 0)

/-- The 54 cells outside the three diagonal boxes, in row-major order —
exactly the traversal order of `fill_remaining` started at `(0, 3)`. -/
def nonDiagList : List (Nat × Nat) := posListN.filter fun p => !(p.1 / 3 == p.2 / 3)

/-! ## Concrete grids and streams used by the witnesses -/

/-- A concrete complete valid grid (the cyclic pattern). -/
def wGrid : Board :=
  [[1,2,3,4,5,6,7,8,9],
   [4,5,6,7,8,9,1,2,3],
   [7,8,9,1,2,3,4,5,6],
   [2,3,4,5,6,7,8,9,1],
   [5,6,7,8,9,1,2,3,4],
   [8,9,1,2,3,4,5,6,7],
   [3,4,5,6,7,8,9,1,2],
   [6,7,8,9,1,2,3,4,5],
   [9,1,2,3,4,5,6,7,8]]

/-- `wGrid` restricted to its three diagonal boxes: the state
`generate_complete_sudoku` hands to the completion pass. -/
def wSeed : Board :=
  [[1,2,3,0,0,0,0,0,0],
   [4,5,6,0,0,0,0,0,0],
   [7,8,9,0,0,0,0,0,0],
   [0,0,0,5,6,7,0,0,0],
   [0,0,0,8,9,1,0,0,0],
   [0,0,0,2,3,4,0,0,0],
   [0,0,0,0,0,0,9,1,2],
   [0,0,0,0,0,0,3,4,5],
   [0,0,0,0,0,0,6,7,8]]

/-- `wGrid` with the two cells `(0,0)` and `(0,1)` zeroed; it has a unique
completion, namely `wGrid`. -/
def wPartial : Board :=
  [[0,0,3,4,5,6,7,8,9],
   [4,5,6,7,8,9,1,2,3],
   [7,8,9,1,2,3,4,5,6],
   [2,3,4,5,6,7,8,9,1],
   [5,6,7,8,9,1,2,3,4],
   [8,9,1,2,3,4,5,6,7],
   [3,4,5,6,7,8,9,1,2],
   [6,7,8,9,1,2,3,4,5],
   [9,1,2,3,4,5,6,7,8]]

/-- The random draws driving the carving witness: first the clue draw
(5, giving 45 + 5 % 6 = 50 clues), then row/column pairs for 31 removals
that each keep the puzzle uniquely solvable. -/
def wCarveStream : RStream := fun n =>
  [5, 0, 0, 0, 1, 0, 2, 0, 3, 0, 4, 0, 5, 0, 6, 0, 7, 0, 8, 1, 6, 1, 7, 1, 8, 2, 3, 2, 4, 2, 5, 2, 6, 2, 7, 2, 8, 3, 2, 3, 5, 3, 8, 4, 0, 4, 1, 4, 3, 4, 4, 4, 8, 5, 5, 5, 8, 6, 1, 6, 2, 6, 4].getD n 0

/-- The question grid `remove_cells` produces from `wGrid` under
`wCarveStream` (50 clues, unique solution). -/
def wCarved : Board :=
  [[0,0,0,0,0,0,0,0,0],
   [4,5,6,7,8,9,0,0,0],
   [7,8,9,0,0,0,0,0,0],
   [2,3,0,5,6,0,8,9,0],
   [0,0,7,0,0,1,2,3,0],
   [8,9,1,2,3,0,5,6,0],
   [3,0,0,6,0,8,9,1,2],
   [6,7,8,9,1,2,3,4,5],
   [9,1,2,3,4,5,6,7,8]]

/-- The random draws driving the full-pipeline witness: 24 zeros for the
three Fisher-Yates shuffles, then the clue draw (50 clues), then row/column
pairs for 31 uniqueness-preserving removals. -/
def wPipeStream : RStream := fun n =>
  [0, 0, 0, 0, 0, 0, 0, 0, 0, 0, 0, 0, 0, 0, 0, 0, 0, 0, 0, 0, 0, 0, 0, 0, 5, 0, 0, 0, 1, 0, 2, 0, 3, 0, 4, 0, 5, 0, 6, 0, 7, 0, 8, 1, 3, 1, 4, 1, 5, 1, 6, 1, 7, 1, 8, 2, 6, 2, 7, 2, 8, 3, 0, 3, 1, 3, 2, 3, 5, 3, 7, 3, 8, 4, 1, 4, 2, 4, 3, 4, 4, 4, 7, 4, 8, 5, 5].getD n 0

/-- The complete grid `generate_complete_sudoku` produces under
`wPipeStream`. -/
def wPipeAnswer : Board :=
  [[1,9,8,2,4,3,5,7,6],
   [7,6,5,8,1,9,2,4,3],
   [4,3,2,5,7,6,8,1,9],
   [2,4,3,1,9,8,6,5,7],
   [8,1,9,7,6,5,3,2,4],
   [5,7,6,4,3,2,9,8,1],
   [3,2,4,6,5,7,1,9,8],
   [9,8,1,3,2,4,7,6,5],
   [6,5,7,9,8,1,4,3,2]]

/-- The question grid `generate_sudoku_puzzle` produces under
`wPipeStream`. -/
def wPipeQuestion : Board :=
  [[0,0,0,0,0,0,0,0,0],
   [7,6,5,0,0,0,0,0,0],
   [4,3,2,5,7,6,0,0,0],
   [0,0,0,1,9,0,6,0,0],
   [8,0,0,0,0,5,3,0,0],
   [5,7,6,4,3,0,9,8,1],
   [3,2,4,6,5,7,1,9,8],
   [9,8,1,3,2,4,7,6,5],
   [6,5,7,9,8,1,4,3,2]]

/-- The numeric value of a decimal digit character. -/
def chVal (c : Char) : Nat := c.toNat - 48

/-- Horner evaluation of a decimal digit string, starting from `a`. -/
def valAcc (a : Nat) (l : List Char) : Nat := l.foldl (fun x c => 10 * x + chVal c) a

/-! ## Decidability of the grid predicates -/

instance (b : Board) : Decidable (WF b) := by unfold WF; infer_instance

instance (b : Board) : Decidable (CompleteB b) := by unfold CompleteB; infer_instance

instance (b : Board) : Decidable (ValidComplete b) := by unfold ValidComplete; infer_instance

instance (b : Board) : Decidable (DiagSeeded b) := by unfold DiagSeeded; infer_instance

/-! ## Basic facts about cells, positions and well-formedness -/

theorem getD_row_mem {b : Board} {i : Nat} (h : i < b.length) : b.getD i [] ∈ b := by
  rw [List.getD_eq_getElem?_getD, List.getElem?_eq_getElem h]
  exact List.getElem_mem h

theorem WF_setCellN {b : Board} (hb : WF b) (i j v : Nat) : WF (setCellN b i j v) := by
  obtain ⟨hlen, hrows⟩ := hb
  refine ⟨by simp [setCellN, hlen], ?_⟩
  intro r hr
  rcases Nat.lt_or_ge i b.length with hi | hi
  · rcases List.mem_or_eq_of_mem_set hr with h | h
    · exact hrows r h
    · subst h
      simp only [List.length_set]
      exact hrows _ (getD_row_mem hi)
  · rw [setCellN, List.set_eq_of_length_le hi] at hr
    exact hrows r hr

theorem getCellN_setCellN_same {b : Board} (hb : WF b) {i j : Nat} (v : Nat)
    (hi : i < 9) (hj : j < 9) : getCellN (setCellN b i j v) i j = v := by
  obtain ⟨hlen, hrows⟩ := hb
  have hib : i < b.length := by omega
  have hrow : (b.getD i []).length = 9 := hrows _ (getD_row_mem hib)
  unfold getCellN setCellN
  have hrow2 : (b[i]?.getD []).length = 9 := by
    rw [← List.getD_eq_getElem?_getD]; exact hrow
  simp only [List.getD_eq_getElem?_getD]
  rw [List.getElem?_set_self hib, Option.getD_some,
    List.getElem?_set_self (show j < (b[i]?.getD []).length by omega), Option.getD_some]

theorem getCellN_setCellN_other (b : Board) {i j x y : Nat} (v : Nat)
    (h : ¬(x = i ∧ y = j)) : getCellN (setCellN b i j v) x y = getCellN b x y := by
  unfold getCellN setCellN
  rcases eq_or_ne x i with rfl | hxi
  · have hy : y ≠ j := fun hy => h ⟨rfl, hy⟩
    simp only [List.getD_eq_getElem?_getD, List.getElem?_set_self']
    cases hbx : b[x]? with
    | none => simp
    | some row => simp [List.getElem?_set_ne (Ne.symm hy)]
  · simp only [List.getD_eq_getElem?_getD, List.getElem?_set_ne (Ne.symm hxi)]

theorem getCellN_oob {b : Board} (hb : WF b) {i j : Nat} (h : 9 ≤ i ∨ 9 ≤ j) :
    getCellN b i j = 0 := by
  obtain ⟨hlen, hrows⟩ := hb
  unfold getCellN
  rcases Nat.lt_or_ge i 9 with hi | hi
  · have hj : 9 ≤ j := by omega
    have hib : i < b.length := by omega
    have hrow : (b.getD i []).length = 9 := hrows _ (getD_row_mem hib)
    rw [List.getD_eq_getElem?_getD (b.getD i []), List.getElem?_eq_none (by omega)]
    rfl
  · rw [List.getD_eq_getElem?_getD b, List.getElem?_eq_none (by omega)]
    rfl

theorem mem_posListN {p : Nat × Nat} : p ∈ posListN ↔ p.1 < 9 ∧ p.2 < 9 := by
  obtain ⟨i, j⟩ := p
  constructor
  · intro h
    simp only [posListN, List.mem_flatMap, List.mem_map, List.mem_range] at h
    obtain ⟨a, ha, c, hc, heq⟩ := h
    rw [Prod.mk.injEq] at heq
    obtain ⟨rfl, rfl⟩ := heq
    exact ⟨ha, hc⟩
  · rintro ⟨h1, h2⟩
    simp only [posListN, List.mem_flatMap, List.mem_map, List.mem_range]
    exact ⟨i, h1, j, h2, rfl⟩

set_option maxRecDepth 10000 in
theorem posListN_nodup : posListN.Nodup := by decide

theorem posListN_length : posListN.length = 81 := by decide

theorem find?_eq_head?_filter {α : Type} (f : α → Bool) :
    ∀ l : List α, l.find? f = (l.filter f).head?
  | [] => rfl
  | a :: l => by
    cases h : f a with
    | true => rw [List.find?_cons_of_pos _ h, List.filter_cons_of_pos h, List.head?_cons]
    | false => rw [List.find?_cons_of_neg _ (by simp [h]), List.filter_cons_of_neg (by simp [h]),
        find?_eq_head?_filter f l]

theorem findEmpty_eq_head? (b : Board) : findEmpty b = (emptiesOf b).head? :=
  find?_eq_head?_filter _ posListN

theorem findEmpty_eq_none_iff {b : Board} :
    findEmpty b = none ↔ ∀ i < 9, ∀ j < 9, getCellN b i j ≠ 0 := by
  unfold findEmpty
  rw [List.find?_eq_none]
  constructor
  · intro h i hi j hj hz
    have := h (i, j) (mem_posListN.mpr ⟨hi, hj⟩)
    simp [hz] at this
  · intro h p hp
    obtain ⟨h1, h2⟩ := mem_posListN.mp hp
    simpa using h p.1 h1 p.2 h2

theorem findEmpty_some {b : Board} {p : Nat × Nat} (h : findEmpty b = some p) :
    getCellN b p.1 p.2 = 0 ∧ p.1 < 9 ∧ p.2 < 9 := by
  have h1 := List.find?_some h
  have h2 := mem_posListN.mp (List.mem_of_find?_eq_some h)
  simp only [beq_iff_eq] at h1
  exact ⟨h1, h2⟩

/-! ## Counting empty cells -/

theorem length_filter_flip {l : List (Nat × Nat)} (hnd : l.Nodup) {p : Nat × Nat}
    (hp : p ∈ l) {f g : Nat × Nat → Bool}
    (hsame : ∀ q ∈ l, q ≠ p → f q = g q) (hfp : f p = true) (hgp : g p = false) :
    (l.filter f).length = (l.filter g).length + 1 := by
  induction l with
  | nil => cases hp
  | cons a t ih =>
    rcases List.mem_cons.mp hp with rfl | hpt
    · have hpt : p ∉ t := (List.nodup_cons.mp hnd).1
      have hft : t.filter f = t.filter g :=
        List.filter_congr fun q hq => hsame q (List.mem_cons_of_mem p hq)
          (fun hqa => hpt (hqa ▸ hq))
      simp [List.filter_cons, hfp, hgp, hft]
    · have hap : a ≠ p := by
        rintro rfl
        exact (List.nodup_cons.mp hnd).1 hpt
      have hfa : f a = g a := hsame a (List.mem_cons_self a t) hap
      have ihr := ih (List.nodup_cons.mp hnd).2 hpt
        (fun q hq hqp => hsame q (List.mem_cons_of_mem a hq) hqp)
      cases hga : g a with
      | true => simp [List.filter_cons, hfa, hga, ihr]
      | false => simp [List.filter_cons, hfa, hga, ihr]

theorem emptiesOf_setCellN_head {b : Board} (hb : WF b) {p : Nat × Nat}
    {rest : List (Nat × Nat)} {v : Nat} (hv : v ≠ 0) (h : emptiesOf b = p :: rest) :
    emptiesOf (setCellN b p.1 p.2 v) = rest := by
  obtain ⟨l1, l2, hsplit, hl1, hfp, hl2⟩ := List.filter_eq_cons_iff.mp h
  have hmem : p ∈ posListN := by rw [hsplit]; exact List.mem_append_right _ (List.mem_cons_self p l2)
  obtain ⟨hp1, hp2⟩ := mem_posListN.mp hmem
  have hnd : posListN.Nodup := posListN_nodup
  rw [hsplit] at hnd
  have hnotl1 : p ∉ l1 := fun hx =>
    (List.disjoint_of_nodup_append hnd) hx (List.mem_cons_self p l2)
  have hnotl2 : p ∉ l2 := by
    have h2 := (List.nodup_append.mp hnd).2.1
    exact (List.nodup_cons.mp h2).1
  have hcell : ∀ q : Nat × Nat, q ≠ p →
      getCellN (setCellN b p.1 p.2 v) q.1 q.2 = getCellN b q.1 q.2 := by
    intro q hq
    refine getCellN_setCellN_other b v ?_
    rintro ⟨h1, h2⟩
    exact hq (Prod.ext h1 h2)
  unfold emptiesOf
  rw [hsplit, List.filter_append, List.filter_cons]
  have hx1 : l1.filter (fun q => getCellN (setCellN b p.1 p.2 v) q.1 q.2 == 0) = [] := by
    rw [List.filter_eq_nil_iff]
    intro q hq
    rw [hcell q (fun hqp => hnotl1 (hqp ▸ hq))]
    exact hl1 q hq
  have hx2 : (getCellN (setCellN b p.1 p.2 v) p.1 p.2 == 0) = false := by
    rw [getCellN_setCellN_same hb v hp1 hp2]
    exact beq_eq_false_iff_ne.mpr hv
  have hx3 : l2.filter (fun q => getCellN (setCellN b p.1 p.2 v) q.1 q.2 == 0) = rest := by
    rw [← hl2]
    exact List.filter_congr fun q hq => by
      rw [hcell q (fun hqp => hnotl2 (hqp ▸ hq))]
  rw [hx1, hx2, hx3]
  simp

theorem zeroCountB_le (b : Board) : zeroCountB b ≤ 81 := by
  have h := List.length_filter_le (fun p => getCellN b p.1 p.2 == 0) posListN
  rw [posListN_length] at h
  exact h

theorem zeroCountB_setCellN_head {b : Board} (hb : WF b) {p : Nat × Nat}
    {rest : List (Nat × Nat)} {v : Nat} (hv : v ≠ 0) (h : emptiesOf b = p :: rest) :
    zeroCountB (setCellN b p.1 p.2 v) + 1 = zeroCountB b := by
  unfold zeroCountB
  rw [emptiesOf_setCellN_head hb hv h, h, List.length_cons]

theorem zeroCountB_set_zero {b : Board} (hb : WF b) {i j : Nat} (hi : i < 9) (hj : j < 9)
    (h : getCellN b i j ≠ 0) : zeroCountB (setCellN b i j 0) = zeroCountB b + 1 := by
  unfold zeroCountB emptiesOf
  refine @length_filter_flip _ posListN_nodup (i, j) (mem_posListN.mpr ⟨hi, hj⟩) _ _ ?_ ?_ ?_
  · intro q hq hqp
    have : ¬(q.1 = i ∧ q.2 = j) := by
      rintro ⟨h1, h2⟩
      exact hqp (Prod.ext h1 h2)
    rw [getCellN_setCellN_other b 0 this]
  · rw [getCellN_setCellN_same hb 0 hi hj]
    rfl
  · exact beq_eq_false_iff_ne.mpr h

theorem nonZeroCount_add_zeroCountB (b : Board) : nonZeroCount b + zeroCountB b = 81 := by
  have h := @List.length_eq_length_filter_add _ posListN
    (fun p => !(getCellN b p.1 p.2 == 0))
  rw [posListN_length] at h
  have h2 : posListN.filter (fun p => !!(getCellN b p.1 p.2 == 0)) = emptiesOf b := by
    unfold emptiesOf
    exact List.filter_congr fun q _ => by rw [Bool.not_not]
  unfold nonZeroCount zeroCountB
  rw [← h2]
  exact h.symm

theorem emptiesOf_eq_nil_iff {b : Board} : emptiesOf b = [] ↔ CompleteB b := by
  unfold emptiesOf CompleteB
  rw [List.filter_eq_nil_iff]
  constructor
  · intro h i hi j hj hz
    have := h (i, j) (mem_posListN.mpr ⟨hi, hj⟩)
    simp [hz] at this
  · intro h p hp
    obtain ⟨h1, h2⟩ := mem_posListN.mp hp
    simpa using h p.1 h1 p.2 h2

theorem nonZeroCount_of_complete {b : Board} (h : CompleteB b) : nonZeroCount b = 81 := by
  have h0 : zeroCountB b = 0 := by
    unfold zeroCountB
    rw [emptiesOf_eq_nil_iff.mpr h]
    rfl
  have := nonZeroCount_add_zeroCountB b
  omega

/-! ## The constraint checker -/

theorem is_valid_iff {b : Board} {row col num : Nat} :
    is_valid b row col num = true ↔
      (∀ x < 9, getCellN b row x ≠ num ∧ getCellN b x col ≠ num) ∧
      (∀ i < 3, ∀ j < 3, getCellN b (3 * (row / 3) + i) (3 * (col / 3) + j) ≠ num) := by
  unfold is_valid
  simp only [Bool.and_eq_true, List.all_eq_true, List.mem_range, Bool.not_eq_eq_eq_not,
    Bool.not_true, beq_eq_false_iff_ne]

theorem is_valid_false_iff {b : Board} {row col num : Nat} :
    is_valid b row col num = false ↔
      ((∃ x, x < 9 ∧ getCellN b row x = num) ∨ (∃ x, x < 9 ∧ getCellN b x col = num) ∨
       (∃ i, i < 3 ∧ ∃ j, j < 3 ∧
         getCellN b (3 * (row / 3) + i) (3 * (col / 3) + j) = num)) := by
  rw [← Bool.not_eq_true, is_valid_iff]
  constructor
  · intro h
    by_cases hr : ∃ x, x < 9 ∧ getCellN b row x = num
    · exact Or.inl hr
    by_cases hc : ∃ x, x < 9 ∧ getCellN b x col = num
    · exact Or.inr (Or.inl hc)
    right; right
    by_contra hbx
    apply h
    push_neg at hr hc hbx
    exact ⟨fun x hx => ⟨hr x hx, hc x hx⟩, fun i hi j hj => hbx i hi j hj⟩
  · rintro (⟨x, hx, hv⟩ | ⟨x, hx, hv⟩ | ⟨i, hi, j, hj, hv⟩) ⟨h1, h2⟩
    · exact (h1 x hx).1 hv
    · exact (h1 x hx).2 hv
    · exact h2 i hi j hj hv

/-- **C7.**  For every grid, every `row` and `col` in `[0, 9)` and every
value in `[1, 9]`: `is_valid` returns `false` if the value already occurs
in row `row`, in column `col`, or in the 3x3 box containing `(row, col)`,
and returns `true` otherwise. -/
theorem is_valid_spec (b : Board) (row col num : Nat)
    (hrow : row < 9) (hcol : col < 9) (hnum1 : 1 ≤ num) (hnum9 : num ≤ 9) :
    is_valid b row col num = false ↔
      ((∃ x, x < 9 ∧ getCellN b row x = num) ∨ (∃ x, x < 9 ∧ getCellN b x col = num) ∨
       (∃ i, i < 3 ∧ ∃ j, j < 3 ∧
         getCellN b (3 * (row / 3) + i) (3 * (col / 3) + j) = num)) :=
  is_valid_false_iff

/-- Witness for C7 at a concrete input: in the first row of this grid the
value 5 already occurs, so `is_valid` rejects placing another 5 there. -/
theorem is_valid_spec_witness :
    is_valid [[0,0,0,0,5,0,0,0,0], [0,0,0,0,0,0,0,0,0], [0,0,0,0,0,0,0,0,0],
      [0,0,0,0,0,0,0,0,0], [0,0,0,0,0,0,0,0,0], [0,0,0,0,0,0,0,0,0],
      [0,0,0,0,0,0,0,0,0], [0,0,0,0,0,0,0,0,0], [0,0,0,0,0,0,0,0,0]] 0 0 5 = false ↔
      ((∃ x, x < 9 ∧ getCellN [[0,0,0,0,5,0,0,0,0], [0,0,0,0,0,0,0,0,0],
          [0,0,0,0,0,0,0,0,0], [0,0,0,0,0,0,0,0,0], [0,0,0,0,0,0,0,0,0],
          [0,0,0,0,0,0,0,0,0], [0,0,0,0,0,0,0,0,0], [0,0,0,0,0,0,0,0,0],
          [0,0,0,0,0,0,0,0,0]] 0 x = 5) ∨
       (∃ x, x < 9 ∧ getCellN [[0,0,0,0,5,0,0,0,0], [0,0,0,0,0,0,0,0,0],
          [0,0,0,0,0,0,0,0,0], [0,0,0,0,0,0,0,0,0], [0,0,0,0,0,0,0,0,0],
          [0,0,0,0,0,0,0,0,0], [0,0,0,0,0,0,0,0,0], [0,0,0,0,0,0,0,0,0],
          [0,0,0,0,0,0,0,0,0]] x 0 = 5) ∨
       (∃ i, i < 3 ∧ ∃ j, j < 3 ∧ getCellN [[0,0,0,0,5,0,0,0,0], [0,0,0,0,0,0,0,0,0],
          [0,0,0,0,0,0,0,0,0], [0,0,0,0,0,0,0,0,0], [0,0,0,0,0,0,0,0,0],
          [0,0,0,0,0,0,0,0,0], [0,0,0,0,0,0,0,0,0], [0,0,0,0,0,0,0,0,0],
          [0,0,0,0,0,0,0,0,0]] (3 * (0 / 3) + i) (3 * (0 / 3) + j) = 5)) :=
  is_valid_spec _ 0 0 5 (by decide) (by decide) (by decide) (by decide)

/-! ## The solution counter on fully filled grids (C9) -/

theorem countAux_succ_of_none {b : Board} {fuel : Nat} (h : findEmpty b = none) :
    countAux (fuel + 1) b = 1 := by
  unfold countAux
  rw [h]

/-- **C9.**  For every 9x9 grid that contains no zero cells, `count_solutions`
returns exactly 1, even when the filled cells violate the row/column/box
constraints: the counter only scans for empty cells and never re-validates
cells that were already non-zero on entry. -/
theorem count_solutions_of_full (b : Board) (hb : WF b) (h : CompleteB b) :
    count_solutions b = 1 := by
  have hne : findEmpty b = none := by
    rw [findEmpty_eq_head?, emptiesOf_eq_nil_iff.mpr h]
    rfl
  have h82 : count_solutions b = countAux (81 + 1) b := rfl
  rw [h82]
  exact countAux_succ_of_none hne

/-- Witness for C9 at a concrete input: the all-fives grid is fully filled
but violates every row/column/box constraint, and the counter still
reports exactly one solution. -/
theorem count_solutions_of_full_witness :
    count_solutions (List.replicate 9 (List.replicate 9 5)) = 1 :=
  count_solutions_of_full _ (by decide) (by decide)

/-! ## Unrecognized difficulty labels take the hard branch (C10) -/

/-- **C10.**  For every difficulty string that is neither `"easy"` nor
`"medium"` - including strings outside the three recognized bands -
`remove_cells` takes the hard branch: the clue target is drawn as
`25 + r % 6`, always in `[25, 30]`, and the whole carving run is
identical to the one for `"hard"`; no unrecognized label is ever
rejected or signalled. -/
theorem remove_cells_unrecognized_difficulty (fuel : Nat) (b : Board) (d : String)
    (s : RStream) (h1 : d ≠ "easy") (h2 : d ≠ "medium") :
    pickClues d s = (25 + s 0 % 6, fun n => s (n + 1)) ∧
    25 ≤ (pickClues d s).1 ∧ (pickClues d s).1 ≤ 30 ∧
    remove_cells fuel b d s = remove_cells fuel b "hard" s := by
  have hp : pickClues d s = randInt 25 30 s := by
    unfold pickClues
    rw [if_neg h1, if_neg h2]
  have hh : pickClues "hard" s = randInt 25 30 s := by
    unfold pickClues
    rw [if_neg (by decide), if_neg (by decide)]
  have hval : randInt 25 30 s = (25 + s 0 % 6, fun n => s (n + 1)) := rfl
  refine ⟨by rw [hp, hval], ?_, ?_, ?_⟩
  · rw [hp, hval]
    exact Nat.le_add_right 25 _
  · rw [hp, hval]
    have : s 0 % 6 < 6 := Nat.mod_lt _ (by omega)
    simp only
    omega
  · unfold remove_cells
    rw [hp, hh]

/-- Witness for C10 at a concrete input: the label `"expert"` is outside
the three recognized bands. -/
theorem remove_cells_unrecognized_difficulty_witness :
    pickClues "expert" (fun _ => 0) = (25 + (fun _ : Nat => (0 : Nat)) 0 % 6, fun n =>
      (fun _ : Nat => (0 : Nat)) (n + 1)) ∧
    25 ≤ (pickClues "expert" (fun _ => 0)).1 ∧ (pickClues "expert" (fun _ => 0)).1 ≤ 30 ∧
    remove_cells 0 [] "expert" (fun _ => 0) = remove_cells 0 [] "hard" (fun _ => 0) :=
  remove_cells_unrecognized_difficulty 0 [] "expert" (fun _ => 0) (by decide) (by decide)

/-! ## Board extensionality and `setCellN` algebra -/

theorem list_set_self {α : Type} : ∀ (l : List α) (i : Nat) {v : α},
    l[i]? = some v → l.set i v = l
  | a :: _, 0, v, h => by
    simp only [List.getElem?_cons_zero, Option.some.injEq] at h
    rw [List.set_cons_zero, h]
  | a :: t, i + 1, v, h => by
    simp only [List.getElem?_cons_succ] at h
    rw [List.set_cons_succ, list_set_self t i h]

theorem list_ext_getD {α : Type} {d : α} : ∀ {l1 l2 : List α}, l1.length = l2.length →
    (∀ i, i < l1.length → l1.getD i d = l2.getD i d) → l1 = l2
  | [], [], _, _ => rfl
  | [], _ :: _, h, _ => by simp at h
  | _ :: _, [], h, _ => by simp at h
  | a :: t1, e :: t2, hlen, h => by
    have h0 := h 0 (by simp)
    simp only [List.getD_cons_zero] at h0
    have htail : t1 = t2 := list_ext_getD (by simpa using hlen)
      (fun i hi => by
        have hstep := h (i + 1) (by simpa using Nat.succ_lt_succ hi)
        simpa [List.getD_cons_succ] using hstep)
    rw [h0, htail]

theorem board_ext {b c : Board} (hb : WF b) (hc : WF c)
    (h : ∀ i < 9, ∀ j < 9, getCellN b i j = getCellN c i j) : b = c := by
  obtain ⟨hbl, hbr⟩ := hb
  obtain ⟨hcl, hcr⟩ := hc
  refine @list_ext_getD _ [] _ _ (by omega) ?_
  intro i hi
  have hrb : (b.getD i []).length = 9 := hbr _ (getD_row_mem (by omega))
  have hrc : (c.getD i []).length = 9 := hcr _ (getD_row_mem (by omega))
  refine @list_ext_getD _ 0 _ _ (by omega) ?_
  intro j hj
  exact h i (by omega) j (by omega)

theorem setCellN_setCellN (b : Board) (i j v w : Nat) :
    setCellN (setCellN b i j v) i j w = setCellN b i j w := by
  rcases Nat.lt_or_ge i b.length with hi | hi
  · unfold setCellN
    rw [List.set_set]
    congr 1
    rw [List.getD_eq_getElem?_getD, List.getElem?_set_self hi, Option.getD_some, List.set_set]
  · have h1 : setCellN b i j v = b := by
      unfold setCellN
      exact List.set_eq_of_length_le hi
    rw [h1]

theorem setCellN_self {b : Board} {i j v : Nat} (h : getCellN b i j = v) :
    setCellN b i j v = b := by
  unfold setCellN
  unfold getCellN at h
  rcases Nat.lt_or_ge i b.length with hi | hi
  · rcases Nat.lt_or_ge j (b.getD i []).length with hj | hj
    · have hrow : (b.getD i []).set j v = b.getD i [] := by
        apply list_set_self
        rw [List.getElem?_eq_getElem hj]
        rw [List.getD_eq_getElem?_getD, List.getElem?_eq_getElem hj, Option.getD_some] at h
        rw [h]
      rw [hrow]
      apply list_set_self
      rw [List.getElem?_eq_getElem hi]
      rw [List.getD_eq_getElem?_getD, List.getElem?_eq_getElem hi, Option.getD_some]
    · rw [List.set_eq_of_length_le hj]
      apply list_set_self
      rw [List.getElem?_eq_getElem hi]
      rw [List.getD_eq_getElem?_getD, List.getElem?_eq_getElem hi, Option.getD_some]
  · rw [List.set_eq_of_length_le hi]

/-! ## Unfolding equations for the backtracking loop -/

theorem tryNums_cons_invalid {recur : Board → Bool × Board} {b : Board} {p : Nat × Nat}
    {num : Nat} {rest : List Nat} (hv : is_valid b p.1 p.2 num = false) :
    tryNums recur b p (num :: rest) = tryNums recur b p rest := by
  simp only [tryNums, hv, Bool.false_eq_true, if_false]

theorem tryNums_cons_valid_true {recur : Board → Bool × Board} {b : Board} {p : Nat × Nat}
    {num : Nat} {rest : List Nat} {b2 : Board} (hv : is_valid b p.1 p.2 num = true)
    (hres : recur (setCellN b p.1 p.2 num) = (true, b2)) :
    tryNums recur b p (num :: rest) = (true, b2) := by
  simp only [tryNums, hv, eq_self_iff_true, if_true, hres]

theorem tryNums_cons_valid_false {recur : Board → Bool × Board} {b : Board} {p : Nat × Nat}
    {num : Nat} {rest : List Nat} {b2 : Board} (hv : is_valid b p.1 p.2 num = true)
    (hres : recur (setCellN b p.1 p.2 num) = (false, b2)) :
    tryNums recur b p (num :: rest) = tryNums recur (setCellN b2 p.1 p.2 0) p rest := by
  simp only [tryNums, hv, eq_self_iff_true, if_true, hres]

theorem solve_sudoku_succ_none {b : Board} {fuel : Nat} (h : findEmpty b = none) :
    solve_sudoku (fuel + 1) b = (true, b) := by
  unfold solve_sudoku
  rw [h]

theorem solve_sudoku_succ_some {b : Board} {fuel : Nat} {p : Nat × Nat}
    (h : findEmpty b = some p) :
    solve_sudoku (fuel + 1) b = tryNums (solve_sudoku fuel) b p nums1to9 := by
  unfold solve_sudoku
  rw [h]

theorem countAux_succ_some {b : Board} {fuel : Nat} {p : Nat × Nat}
    (h : findEmpty b = some p) :
    countAux (fuel + 1) b = (nums1to9.map fun num =>
      if is_valid b p.1 p.2 num then countAux fuel (setCellN b p.1 p.2 num) else 0).sum := by
  simp only [countAux]
  rw [h]

/-! ## Failure restores the board -/

theorem tryNums_restore {recur : Board → Bool × Board}
    (hrec : ∀ b2, (recur b2).1 = false → (recur b2).2 = b2)
    {b : Board} {p : Nat × Nat} (hcell : getCellN b p.1 p.2 = 0) :
    ∀ nums, (tryNums recur b p nums).1 = false → (tryNums recur b p nums).2 = b
  | [] => fun _ => rfl
  | num :: rest => by
    intro hfalse
    by_cases hv : is_valid b p.1 p.2 num = true
    · cases hres : recur (setCellN b p.1 p.2 num) with
      | mk ok b2 =>
        cases ok with
        | true =>
          rw [tryNums_cons_valid_true hv hres] at hfalse
          exact absurd hfalse (by simp)
        | false =>
          have hb2 : b2 = setCellN b p.1 p.2 num := by
            have h1 := hrec (setCellN b p.1 p.2 num)
            rw [hres] at h1
            exact h1 rfl
          have hreset : setCellN b2 p.1 p.2 0 = b := by
            rw [hb2, setCellN_setCellN, setCellN_self hcell]
          rw [tryNums_cons_valid_false hv hres, hreset] at hfalse ⊢
          exact tryNums_restore hrec hcell rest hfalse
    · have hv2 : is_valid b p.1 p.2 num = false := by
        cases hvv : is_valid b p.1 p.2 num
        · rfl
        · exact absurd hvv hv
      rw [tryNums_cons_invalid hv2] at hfalse ⊢
      exact tryNums_restore hrec hcell rest hfalse

theorem solve_sudoku_restore : ∀ (fuel : Nat) (b : Board),
    (solve_sudoku fuel b).1 = false → (solve_sudoku fuel b).2 = b
  | 0, _ => fun _ => rfl
  | fuel + 1, b => by
    intro hfalse
    cases hfe : findEmpty b with
    | none =>
      rw [solve_sudoku_succ_none hfe] at hfalse
      exact absurd hfalse (by simp)
    | some p =>
      have hcell := (findEmpty_some hfe).1
      rw [solve_sudoku_succ_some hfe] at hfalse ⊢
      exact tryNums_restore (solve_sudoku_restore fuel) hcell nums1to9 hfalse

/-! ## The extension order on grids -/

theorem ExtendsB_refl (b : Board) : ExtendsB b b := fun _ _ _ => rfl

theorem ExtendsB_trans {a b c : Board} (h1 : ExtendsB a b) (h2 : ExtendsB b c) :
    ExtendsB a c := by
  intro i j hne
  have hb := h1 i j hne
  have hbne : getCellN b i j ≠ 0 := by rw [hb]; exact hne
  rw [h2 i j hbne, hb]

theorem ExtendsB_setCellN {b : Board} {p : Nat × Nat} {v : Nat}
    (hcell : getCellN b p.1 p.2 = 0) : ExtendsB b (setCellN b p.1 p.2 v) := by
  intro i j hne
  have hij : ¬(i = p.1 ∧ j = p.2) := by
    rintro ⟨rfl, rfl⟩
    exact hne hcell
  rw [getCellN_setCellN_other b v hij]

theorem ExtendsB_setCellN_of {b c : Board} (hb : WF b) {p : Nat × Nat} {v : Nat}
    (h : ExtendsB b c) (hp1 : p.1 < 9) (hp2 : p.2 < 9)
    (hcell : getCellN b p.1 p.2 = 0) (hval : getCellN c p.1 p.2 = v) :
    ExtendsB (setCellN b p.1 p.2 v) c := by
  intro i j hne
  by_cases hij : i = p.1 ∧ j = p.2
  · obtain ⟨rfl, rfl⟩ := hij
    rw [getCellN_setCellN_same hb v hp1 hp2, hval]
  · rw [getCellN_setCellN_other b v hij] at hne ⊢
    exact h i j hne

theorem complete_extends_eq {b c : Board} (hb : WF b) (hc : WF c)
    (hcomp : CompleteB b) (hext : ExtendsB b c) : c = b := by
  refine board_ext hc hb ?_
  intro i hi j hj
  exact hext i j (hcomp i hi j hj)

/-! ## Values of a complete valid grid -/

theorem nums1to9_nodup : nums1to9.Nodup := by decide

theorem mem_nums1to9 {n : Nat} : n ∈ nums1to9 ↔ 1 ≤ n ∧ n ≤ 9 := by
  simp only [nums1to9, List.mem_cons, List.not_mem_nil, or_false]
  omega

theorem cell_mem_rowListB (b : Board) (i : Nat) {j : Nat} (hj : j < 9) :
    getCellN b i j ∈ rowListB b i := by
  unfold rowListB
  exact List.mem_map.mpr ⟨j, List.mem_range.mpr hj, rfl⟩

theorem cell_bounds_of_validComplete {b : Board} (hv : ValidComplete b) {i j : Nat}
    (hi : i < 9) (hj : j < 9) : 1 ≤ getCellN b i j ∧ getCellN b i j ≤ 9 := by
  have hperm := hv.1 i hi
  have hmem : getCellN b i j ∈ nums1to9 := hperm.mem_iff.mp (cell_mem_rowListB b i hj)
  exact mem_nums1to9.mp hmem

theorem cell_mem_nums_of_validComplete {b : Board} (hv : ValidComplete b) {i j : Nat}
    (hi : i < 9) (hj : j < 9) : getCellN b i j ∈ nums1to9 :=
  (hv.1 i hi).mem_iff.mp (cell_mem_rowListB b i hj)

theorem row_values_ne {b : Board} {i : Nat} (hperm : (rowListB b i).Perm nums1to9)
    {x y : Nat} (hx : x < 9) (hy : y < 9) (hxy : x ≠ y) :
    getCellN b i x ≠ getCellN b i y := by
  have hnd : (rowListB b i).Nodup := hperm.nodup_iff.mpr nums1to9_nodup
  unfold rowListB at hnd
  intro heq
  exact hxy (List.inj_on_of_nodup_map hnd (List.mem_range.mpr hx)
    (List.mem_range.mpr hy) heq)

theorem col_values_ne {b : Board} {j : Nat} (hperm : (colListB b j).Perm nums1to9)
    {x y : Nat} (hx : x < 9) (hy : y < 9) (hxy : x ≠ y) :
    getCellN b x j ≠ getCellN b y j := by
  have hnd : (colListB b j).Nodup := hperm.nodup_iff.mpr nums1to9_nodup
  unfold colListB at hnd
  intro heq
  exact hxy (List.inj_on_of_nodup_map hnd (List.mem_range.mpr hx)
    (List.mem_range.mpr hy) heq)

theorem mem_boxPosList {w : Nat × Nat} : w ∈ boxPosList ↔ w.1 < 3 ∧ w.2 < 3 := by
  obtain ⟨i, j⟩ := w
  constructor
  · intro h
    simp only [boxPosList, List.mem_flatMap, List.mem_map, List.mem_range] at h
    obtain ⟨a, ha, c, hc, heq⟩ := h
    rw [Prod.mk.injEq] at heq
    obtain ⟨rfl, rfl⟩ := heq
    exact ⟨ha, hc⟩
  · rintro ⟨h1, h2⟩
    simp only [boxPosList, List.mem_flatMap, List.mem_map, List.mem_range]
    exact ⟨i, h1, j, h2, rfl⟩

theorem boxListB_eq_map (b : Board) (p q : Nat) :
    boxListB b p q = boxPosList.map fun w => getCellN b (3 * p + w.1) (3 * q + w.2) := by
  unfold boxListB boxPosList
  rw [List.map_flatMap]
  simp only [List.map_map]
  rfl

theorem box_values_ne {b : Board} {p q : Nat} (hperm : (boxListB b p q).Perm nums1to9)
    {w1 w2 : Nat × Nat} (h11 : w1.1 < 3) (h12 : w1.2 < 3) (h21 : w2.1 < 3) (h22 : w2.2 < 3)
    (hne : w1 ≠ w2) :
    getCellN b (3 * p + w1.1) (3 * q + w1.2) ≠ getCellN b (3 * p + w2.1) (3 * q + w2.2) := by
  have hnd : (boxListB b p q).Nodup := hperm.nodup_iff.mpr nums1to9_nodup
  rw [boxListB_eq_map] at hnd
  intro heq
  exact hne (List.inj_on_of_nodup_map hnd (mem_boxPosList.mpr ⟨h11, h12⟩)
    (mem_boxPosList.mpr ⟨h21, h22⟩) heq)

/-! ## Placement validity against a complete valid extension -/

theorem isValid_of_extends {b c : Board} (hvc : ValidComplete c) (hbc : ExtendsB b c)
    {p : Nat × Nat} (hp1 : p.1 < 9) (hp2 : p.2 < 9) (hcell : getCellN b p.1 p.2 = 0) :
    is_valid b p.1 p.2 (getCellN c p.1 p.2) = true := by
  have hv1 : 1 ≤ getCellN c p.1 p.2 := (cell_bounds_of_validComplete hvc hp1 hp2).1
  rw [is_valid_iff]
  constructor
  · intro x hx
    constructor
    · intro heq
      have hne : getCellN b p.1 x ≠ 0 := by omega
      have hcx : getCellN c p.1 x = getCellN c p.1 p.2 := by rw [hbc _ _ hne, heq]
      have hxne : x ≠ p.2 := by
        intro hxeq
        rw [hxeq, hcell] at heq
        omega
      exact row_values_ne (hvc.1 p.1 hp1) hx hp2 hxne hcx
    · intro heq
      have hne : getCellN b x p.2 ≠ 0 := by omega
      have hcx : getCellN c x p.2 = getCellN c p.1 p.2 := by rw [hbc _ _ hne, heq]
      have hxne : x ≠ p.1 := by
        intro hxeq
        rw [hxeq, hcell] at heq
        omega
      exact col_values_ne (hvc.2.1 p.2 hp2) hx hp1 hxne hcx
  · intro i hi j hj heq
    have hne : getCellN b (3 * (p.1 / 3) + i) (3 * (p.2 / 3) + j) ≠ 0 := by omega
    have hcx : getCellN c (3 * (p.1 / 3) + i) (3 * (p.2 / 3) + j) = getCellN c p.1 p.2 := by
      rw [hbc _ _ hne, heq]
    have e1 : 3 * (p.1 / 3) + p.1 % 3 = p.1 := by omega
    have e2 : 3 * (p.2 / 3) + p.2 % 3 = p.2 := by omega
    have hwne : ((i, j) : Nat × Nat) ≠ (p.1 % 3, p.2 % 3) := by
      intro hw
      rw [Prod.mk.injEq] at hw
      obtain ⟨rfl, rfl⟩ := hw
      rw [e1, e2, hcell] at heq
      omega
    have hbne := @box_values_ne _ _ _ (hvc.2.2 (p.1 / 3) (by omega) (p.2 / 3) (by omega))
      (i, j) (p.1 % 3, p.2 % 3) hi hj (by omega) (by omega) hwne
    rw [e1, e2] at hbne
    exact hbne hcx

/-! ## Conflict-freeness: preservation and transfer -/

theorem OkBoard_of_extends {b c : Board} (hc : OkBoard c) (h : ExtendsB b c) : OkBoard b := by
  obtain ⟨h9, hrow, hcol, hbox⟩ := hc
  refine ⟨?_, ?_, ?_, ?_⟩
  · intro i j
    by_cases hz : getCellN b i j = 0
    · rw [hz]
      omega
    · rw [← h i j hz]
      exact h9 i j
  · intro i j j2 hne hz heq
    by_cases hz2 : getCellN b i j2 = 0
    · rw [hz2] at heq
      exact hz heq
    · exact hrow i j j2 hne (by rw [h i j hz]; exact hz)
        (by rw [h i j hz, h i j2 hz2, heq])
  · intro i i2 j hne hz heq
    by_cases hz2 : getCellN b i2 j = 0
    · rw [hz2] at heq
      exact hz heq
    · exact hcol i i2 j hne (by rw [h i j hz]; exact hz)
        (by rw [h i j hz, h i2 j hz2, heq])
  · intro i j i2 j2 hne hsame hz heq
    by_cases hz2 : getCellN b i2 j2 = 0
    · rw [hz2] at heq
      exact hz heq
    · exact hbox i j i2 j2 hne hsame (by rw [h i j hz]; exact hz)
        (by rw [h i j hz, h i2 j2 hz2, heq])

theorem OkBoard_of_validComplete {b : Board} (hw : WF b) (hv : ValidComplete b) :
    OkBoard b := by
  refine ⟨?_, ?_, ?_, ?_⟩
  · intro i j
    by_cases hb : i < 9 ∧ j < 9
    · exact (cell_bounds_of_validComplete hv hb.1 hb.2).2
    · rw [getCellN_oob hw (by omega)]
      omega
  · intro i j j2 hne hz heq
    have hij : i < 9 ∧ j < 9 := by
      by_contra hc
      exact hz (getCellN_oob hw (by omega))
    have hj2 : j2 < 9 := by
      by_contra hc
      rw [@getCellN_oob b hw i j2 (by omega)] at heq
      exact hz heq
    exact row_values_ne (hv.1 i hij.1) hij.2 hj2 hne heq
  · intro i i2 j hne hz heq
    have hij : i < 9 ∧ j < 9 := by
      by_contra hc
      exact hz (getCellN_oob hw (by omega))
    have hi2 : i2 < 9 := by
      by_contra hc
      rw [@getCellN_oob b hw i2 j (by omega)] at heq
      exact hz heq
    exact col_values_ne (hv.2.1 j hij.2) hij.1 hi2 hne heq
  · intro i j i2 j2 hne hsame hz heq
    have hij : i < 9 ∧ j < 9 := by
      by_contra hc
      exact hz (getCellN_oob hw (by omega))
    have hij2 : i2 < 9 ∧ j2 < 9 := by
      by_contra hc
      rw [@getCellN_oob b hw i2 j2 (by omega)] at heq
      exact hz heq
    obtain ⟨hs1, hs2⟩ := hsame
    have e1 : 3 * (i / 3) + i % 3 = i := by omega
    have e2 : 3 * (j / 3) + j % 3 = j := by omega
    have e3 : 3 * (i / 3) + i2 % 3 = i2 := by omega
    have e4 : 3 * (j / 3) + j2 % 3 = j2 := by omega
    have hwne : ((i % 3, j % 3) : Nat × Nat) ≠ (i2 % 3, j2 % 3) := by
      intro hw2
      rw [Prod.mk.injEq] at hw2
      apply hne
      rw [Prod.mk.injEq]
      omega
    have hbne := @box_values_ne _ _ _ (hv.2.2 (i / 3) (by omega) (j / 3) (by omega))
      (i % 3, j % 3) (i2 % 3, j2 % 3) (by omega) (by omega)
      (by omega) (by omega) hwne
    rw [e1, e2, e3, e4] at hbne
    exact hbne heq

theorem perm_nums_of_nodup {l : List Nat} (hnd : l.Nodup) (hsub : ∀ x ∈ l, x ∈ nums1to9)
    (hlen : l.length = 9) : l.Perm nums1to9 := by
  have hsp : l.Subperm nums1to9 := List.subperm_of_subset hnd hsub
  exact hsp.perm_of_length_le (by rw [hlen]; decide)

theorem validComplete_of_complete_ok {b : Board} (hw : WF b) (hcomp : CompleteB b)
    (hok : OkBoard b) : ValidComplete b := by
  obtain ⟨h9, hrow, hcol, hbox⟩ := hok
  refine ⟨?_, ?_, ?_⟩
  · intro i hi
    refine perm_nums_of_nodup ?_ ?_ (by simp [rowListB])
    · refine List.Nodup.map_on ?_ (List.nodup_range 9)
      intro x hx y hy heq
      by_contra hxy
      exact hrow i x y hxy (hcomp i hi x (List.mem_range.mp hx)) heq
    · intro v hv
      obtain ⟨x, hx, rfl⟩ := List.mem_map.mp hv
      exact mem_nums1to9.mpr ⟨Nat.one_le_iff_ne_zero.mpr
        (hcomp i hi x (List.mem_range.mp hx)), h9 i x⟩
  · intro j hj
    refine perm_nums_of_nodup ?_ ?_ (by simp [colListB])
    · refine List.Nodup.map_on ?_ (List.nodup_range 9)
      intro x hx y hy heq
      by_contra hxy
      exact hcol x y j hxy (hcomp x (List.mem_range.mp hx) j hj) heq
    · intro v hv
      obtain ⟨x, hx, rfl⟩ := List.mem_map.mp hv
      exact mem_nums1to9.mpr ⟨Nat.one_le_iff_ne_zero.mpr
        (hcomp x (List.mem_range.mp hx) j hj), h9 x j⟩
  · intro p hp q hq
    rw [boxListB_eq_map]
    refine perm_nums_of_nodup ?_ ?_ (by rfl)
    · refine List.Nodup.map_on ?_ (by decide)
      intro w1 hw1 w2 hw2 heq
      obtain ⟨h11, h12⟩ := mem_boxPosList.mp hw1
      obtain ⟨h21, h22⟩ := mem_boxPosList.mp hw2
      by_contra hwne
      have hcne : ((3 * p + w1.1, 3 * q + w1.2) : Nat × Nat) ≠ (3 * p + w2.1, 3 * q + w2.2) := by
        intro hc
        rw [Prod.mk.injEq] at hc
        apply hwne
        rw [Prod.ext_iff]
        omega
      have hsame : sameBoxN (3 * p + w1.1) (3 * q + w1.2) (3 * p + w2.1) (3 * q + w2.2) := by
        unfold sameBoxN
        omega
      exact hbox _ _ _ _ hcne hsame
        (hcomp _ (by omega) _ (by omega)) heq
    · intro v hv
      obtain ⟨w, hw, rfl⟩ := List.mem_map.mp hv
      obtain ⟨hw1, hw2⟩ := mem_boxPosList.mp hw
      exact mem_nums1to9.mpr ⟨Nat.one_le_iff_ne_zero.mpr
        (hcomp _ (by omega) _ (by omega)), h9 _ _⟩

theorem OkBoard_setCellN {b : Board} (hw : WF b) (hok : OkBoard b) {i j num : Nat}
    (hi : i < 9) (hj : j < 9) (hcell : getCellN b i j = 0)
    (hv : is_valid b i j num = true) (h1 : 1 ≤ num) (h9 : num ≤ 9) :
    OkBoard (setCellN b i j num) := by
  obtain ⟨hrc, hbc⟩ := is_valid_iff.mp hv
  obtain ⟨ho9, horow, hocol, hobox⟩ := hok
  have hget : ∀ x y, getCellN (setCellN b i j num) x y =
      if x = i ∧ y = j then num else getCellN b x y := by
    intro x y
    by_cases hxy : x = i ∧ y = j
    · obtain ⟨rfl, rfl⟩ := hxy
      rw [if_pos ⟨rfl, rfl⟩, getCellN_setCellN_same hw num hi hj]
    · rw [if_neg hxy, getCellN_setCellN_other b num hxy]
  refine ⟨?_, ?_, ?_, ?_⟩
  · intro x y
    rw [hget]
    by_cases hxy : x = i ∧ y = j
    · rw [if_pos hxy]
      exact h9
    · rw [if_neg hxy]
      exact ho9 x y
  · intro x y y2 hne hz heq
    rw [hget] at hz
    rw [hget, hget] at heq
    by_cases hxy : x = i ∧ y = j
    · rw [if_pos hxy] at heq
      obtain ⟨rfl, rfl⟩ := hxy
      rw [if_neg (by rintro ⟨-, rfl⟩; exact hne rfl)] at heq
      by_cases hy2 : y2 < 9
      · exact (hrc y2 hy2).1 heq.symm
      · rw [@getCellN_oob b hw x y2 (by omega)] at heq
        omega
    · rw [if_neg hxy] at heq hz
      by_cases hxy2 : x = i ∧ y2 = j
      · rw [if_pos hxy2] at heq
        obtain ⟨rfl, rfl⟩ := hxy2
        by_cases hy : y < 9
        · exact (hrc y hy).1 heq
        · exact hz (@getCellN_oob b hw x y (by omega))
      · rw [if_neg hxy2] at heq
        exact horow x y y2 hne hz heq
  · intro x x2 y hne hz heq
    rw [hget] at hz
    rw [hget, hget] at heq
    by_cases hxy : x = i ∧ y = j
    · rw [if_pos hxy] at heq
      obtain ⟨rfl, rfl⟩ := hxy
      rw [if_neg (by rintro ⟨rfl, -⟩; exact hne rfl)] at heq
      by_cases hx2 : x2 < 9
      · exact (hrc x2 hx2).2 heq.symm
      · rw [@getCellN_oob b hw x2 y (by omega)] at heq
        omega
    · rw [if_neg hxy] at heq hz
      by_cases hxy2 : x2 = i ∧ y = j
      · rw [if_pos hxy2] at heq
        obtain ⟨rfl, rfl⟩ := hxy2
        by_cases hx : x < 9
        · exact (hrc x hx).2 heq
        · exact hz (@getCellN_oob b hw x y (by omega))
      · rw [if_neg hxy2] at heq
        exact hocol x x2 y hne hz heq
  · intro x y x2 y2 hne hsame hz heq
    rw [hget] at hz
    rw [hget, hget] at heq
    by_cases hxy : x = i ∧ y = j
    · rw [if_pos hxy] at heq
      obtain ⟨rfl, rfl⟩ := hxy
      rw [if_neg (by rintro ⟨rfl, rfl⟩; exact hne rfl)] at heq
      obtain ⟨hs1, hs2⟩ := hsame
      have e3 : 3 * (x / 3) + x2 % 3 = x2 := by omega
      have e4 : 3 * (y / 3) + y2 % 3 = y2 := by omega
      have hb2 := hbc (x2 % 3) (by omega) (y2 % 3) (by omega)
      rw [e3, e4] at hb2
      exact hb2 heq.symm
    · rw [if_neg hxy] at heq hz
      by_cases hxy2 : x2 = i ∧ y2 = j
      · rw [if_pos hxy2] at heq
        obtain ⟨rfl, rfl⟩ := hxy2
        obtain ⟨hs1, hs2⟩ := hsame
        have e3 : 3 * (x2 / 3) + x % 3 = x := by omega
        have e4 : 3 * (y2 / 3) + y % 3 = y := by omega
        have hb2 := hbc (x % 3) (by omega) (y % 3) (by omega)
        rw [e3, e4] at hb2
        exact hb2 heq
      · rw [if_neg hxy2] at heq
        exact hobox x y x2 y2 hne hsame hz heq

/-! ## Soundness of the backtracking solver -/

theorem tryNums_sound {recur : Board → Bool × Board}
    (hrec : ∀ bb bb2, recur bb = (true, bb2) →
      ExtendsB bb bb2 ∧ CompleteB bb2 ∧ (WF bb → WF bb2) ∧ (WF bb → OkBoard bb → OkBoard bb2))
    (hrestore : ∀ bb, (recur bb).1 = false → (recur bb).2 = bb)
    {b : Board} {p : Nat × Nat} (hp1 : p.1 < 9) (hp2 : p.2 < 9)
    (hcell : getCellN b p.1 p.2 = 0) :
    ∀ nums, (∀ n ∈ nums, 1 ≤ n ∧ n ≤ 9) → ∀ b2, tryNums recur b p nums = (true, b2) →
      ExtendsB b b2 ∧ CompleteB b2 ∧ (WF b → WF b2) ∧ (WF b → OkBoard b → OkBoard b2)
  | [] => by
    intro _ b2 h
    simp [tryNums] at h
  | num :: rest => by
    intro hnums b2 htry
    by_cases hv : is_valid b p.1 p.2 num = true
    · cases hres : recur (setCellN b p.1 p.2 num) with
      | mk ok bb2 =>
        cases ok with
        | true =>
          rw [tryNums_cons_valid_true hv hres] at htry
          injection htry with h1 h2
          subst h2
          obtain ⟨hx1, hx2, hx3, hx4⟩ := hrec _ _ hres
          have hstep : ExtendsB b (setCellN b p.1 p.2 num) := ExtendsB_setCellN hcell
          refine ⟨ExtendsB_trans hstep hx1, hx2, ?_, ?_⟩
          · intro hwb
            exact hx3 (WF_setCellN hwb _ _ _)
          · intro hwb hok
            have hnum := hnums num (List.mem_cons_self num rest)
            exact hx4 (WF_setCellN hwb _ _ _)
              (OkBoard_setCellN hwb hok hp1 hp2 hcell hv hnum.1 hnum.2)
        | false =>
          have hb2 : bb2 = setCellN b p.1 p.2 num := by
            have h1 := hrestore (setCellN b p.1 p.2 num)
            rw [hres] at h1
            exact h1 rfl
          have hreset : setCellN bb2 p.1 p.2 0 = b := by
            rw [hb2, setCellN_setCellN, setCellN_self hcell]
          rw [tryNums_cons_valid_false hv hres, hreset] at htry
          exact tryNums_sound hrec hrestore hp1 hp2 hcell rest
            (fun n hn => hnums n (List.mem_cons_of_mem _ hn)) b2 htry
    · have hv2 : is_valid b p.1 p.2 num = false := by
        cases hvv : is_valid b p.1 p.2 num
        · rfl
        · exact absurd hvv hv
      rw [tryNums_cons_invalid hv2] at htry
      exact tryNums_sound hrec hrestore hp1 hp2 hcell rest
        (fun n hn => hnums n (List.mem_cons_of_mem _ hn)) b2 htry

theorem solve_sudoku_sound : ∀ (fuel : Nat) (b b2 : Board),
    solve_sudoku fuel b = (true, b2) →
      ExtendsB b b2 ∧ CompleteB b2 ∧ (WF b → WF b2) ∧ (WF b → OkBoard b → OkBoard b2)
  | 0, b, b2 => by
    intro h
    simp [solve_sudoku] at h
  | fuel + 1, b, b2 => by
    intro h
    cases hfe : findEmpty b with
    | none =>
      rw [solve_sudoku_succ_none hfe] at h
      injection h with h1 h2
      subst h2
      exact ⟨ExtendsB_refl b, findEmpty_eq_none_iff.mp hfe, fun hw => hw, fun _ hok => hok⟩
    | some p =>
      obtain ⟨hcell, hp1, hp2⟩ := findEmpty_some hfe
      rw [solve_sudoku_succ_some hfe] at h
      exact tryNums_sound (solve_sudoku_sound fuel) (solve_sudoku_restore fuel)
        hp1 hp2 hcell nums1to9 (fun n hn => mem_nums1to9.mp hn) b2 h

/-! ## Completeness of the backtracking solver -/

theorem tryNums_complete {recur : Board → Bool × Board}
    (hrestore : ∀ bb, (recur bb).1 = false → (recur bb).2 = bb)
    {b : Board} {p : Nat × Nat} (hcell : getCellN b p.1 p.2 = 0) {v : Nat}
    (hv : is_valid b p.1 p.2 v = true)
    (hsucc : (recur (setCellN b p.1 p.2 v)).1 = true) :
    ∀ nums, v ∈ nums → (tryNums recur b p nums).1 = true
  | [], hmem => absurd hmem (List.not_mem_nil v)
  | num :: rest, hmem => by
    by_cases hvn : is_valid b p.1 p.2 num = true
    · cases hres : recur (setCellN b p.1 p.2 num) with
      | mk ok bb2 =>
        cases ok with
        | true =>
          rw [tryNums_cons_valid_true hvn hres]
        | false =>
          have hnv : num ≠ v := by
            intro hne
            subst hne
            rw [hres] at hsucc
            simp at hsucc
          have hb2 : bb2 = setCellN b p.1 p.2 num := by
            have h1 := hrestore (setCellN b p.1 p.2 num)
            rw [hres] at h1
            exact h1 rfl
          have hreset : setCellN bb2 p.1 p.2 0 = b := by
            rw [hb2, setCellN_setCellN, setCellN_self hcell]
          rw [tryNums_cons_valid_false hvn hres, hreset]
          have hmem2 : v ∈ rest := by
            rcases List.mem_cons.mp hmem with h | h
            · exact absurd h.symm hnv
            · exact h
          exact tryNums_complete hrestore hcell hv hsucc rest hmem2
    · have hvn2 : is_valid b p.1 p.2 num = false := by
        cases hvv : is_valid b p.1 p.2 num
        · rfl
        · exact absurd hvv hvn
      have hnv : num ≠ v := by
        intro hne
        subst hne
        exact hvn hv
      rw [tryNums_cons_invalid hvn2]
      have hmem2 : v ∈ rest := by
        rcases List.mem_cons.mp hmem with h | h
        · exact absurd h.symm hnv
        · exact h
      exact tryNums_complete hrestore hcell hv hsucc rest hmem2

theorem emptiesOf_head_of_findEmpty {b : Board} {p : Nat × Nat} (h : findEmpty b = some p) :
    ∃ rest, emptiesOf b = p :: rest := by
  have hhead : (emptiesOf b).head? = some p := by
    rw [← findEmpty_eq_head?]
    exact h
  cases he : emptiesOf b with
  | nil =>
    rw [he] at hhead
    cases hhead
  | cons q t =>
    rw [he] at hhead
    injection hhead with h1
    subst h1
    exact ⟨t, rfl⟩

theorem solve_sudoku_complete : ∀ (fuel : Nat) (b c : Board), WF b →
    zeroCountB b < fuel → ValidComplete c → ExtendsB b c →
    (solve_sudoku fuel b).1 = true
  | 0, b, c => by
    intro _ hf _ _
    omega
  | fuel + 1, b, c => by
    intro hwb hf hvc hbc
    cases hfe : findEmpty b with
    | none =>
      rw [solve_sudoku_succ_none hfe]
    | some p =>
      obtain ⟨hcell, hp1, hp2⟩ := findEmpty_some hfe
      rw [solve_sudoku_succ_some hfe]
      obtain ⟨rest, hrest⟩ := emptiesOf_head_of_findEmpty hfe
      have hvne : getCellN c p.1 p.2 ≠ 0 := by
        have := (cell_bounds_of_validComplete hvc hp1 hp2).1
        omega
      have hzc := zeroCountB_setCellN_head hwb hvne hrest
      exact tryNums_complete (solve_sudoku_restore fuel) hcell
        (isValid_of_extends hvc hbc hp1 hp2 hcell)
        (solve_sudoku_complete fuel _ c (WF_setCellN hwb _ _ _) (by omega) hvc
          (ExtendsB_setCellN_of hwb hbc hp1 hp2 hcell rfl))
        nums1to9 (cell_mem_nums_of_validComplete hvc hp1 hp2)

/-! ## The solver on a uniquely completable grid (C6) -/

/-- **C6.**  For every complete valid grid `G` and every partial grid `P`
obtained by zeroing some cells of `G`, if `P` has a unique completion then
`solve_sudoku`, run with enough fuel on (a copy of) `P`, terminates with
result `true` and leaves the board equal to `G`. -/
theorem solve_sudoku_unique_completion (G P : Board) (fuel : Nat)
    (hWG : WF G) (hWP : WF P) (hG : ValidComplete G)
    (hzero : ∀ i < 9, ∀ j < 9, getCellN P i j = getCellN G i j ∨ getCellN P i j = 0)
    (huniq : ∀ c, WF c → ValidComplete c → ExtendsB P c → c = G)
    (hfuel : zeroCountB P < fuel) :
    solve_sudoku fuel P = (true, G) := by
  have hext : ExtendsB P G := by
    intro i j hne
    by_cases hij : i < 9 ∧ j < 9
    · rcases hzero i hij.1 j hij.2 with h | h
      · rw [h]
      · exact absurd h hne
    · exact absurd (getCellN_oob hWP (by omega)) hne
  have htrue := solve_sudoku_complete fuel P G hWP hfuel hG hext
  cases hres : solve_sudoku fuel P with
  | mk ok b2 =>
    rw [hres] at htrue
    have hok : ok = true := htrue
    subst hok
    obtain ⟨hx1, hx2, hx3, hx4⟩ := solve_sudoku_sound fuel P b2 hres
    have hwb2 := hx3 hWP
    have hok2 := hx4 hWP (OkBoard_of_extends (OkBoard_of_validComplete hWG hG) hext)
    have hvc2 := validComplete_of_complete_ok hwb2 hx2 hok2
    rw [huniq b2 hwb2 hvc2 hx1]

/-! ## Lower bounds for the solution counter -/

theorem le_sum_of_mem {l : List Nat} {f : Nat → Nat} {a : Nat} (ha : a ∈ l) :
    f a ≤ (l.map f).sum := by
  induction l with
  | nil => cases ha
  | cons x t ih =>
    rw [List.map_cons, List.sum_cons]
    rcases List.mem_cons.mp ha with rfl | h
    · exact Nat.le_add_right _ _
    · exact le_trans (ih h) (Nat.le_add_left _ _)

theorem two_le_sum_of_two_mem {l : List Nat} {f : Nat → Nat} {a b : Nat} (hab : a ≠ b)
    (ha : a ∈ l) (hb : b ∈ l) (hfa : 1 ≤ f a) (hfb : 1 ≤ f b) : 2 ≤ (l.map f).sum := by
  induction l with
  | nil => cases ha
  | cons x t ih =>
    rw [List.map_cons, List.sum_cons]
    rcases List.mem_cons.mp ha with rfl | hat
    · have hbt : b ∈ t := by
        rcases List.mem_cons.mp hb with h | h
        · exact absurd h.symm hab
        · exact h
      have := @le_sum_of_mem _ f _ hbt
      omega
    · rcases List.mem_cons.mp hb with rfl | hbt
      · have := @le_sum_of_mem _ f _ hat
        omega
      · have := ih hat hbt
        omega

theorem countAux_pos : ∀ (fuel : Nat) (b c : Board), WF b → zeroCountB b < fuel →
    WF c → ValidComplete c → ExtendsB b c → 1 ≤ countAux fuel b
  | 0, _, _ => by
    intro _ hf _ _ _
    omega
  | fuel + 1, b, c => by
    intro hwb hf hwc hvc hbc
    cases hfe : findEmpty b with
    | none =>
      rw [countAux_succ_of_none hfe]
    | some p =>
      obtain ⟨hcell, hp1, hp2⟩ := findEmpty_some hfe
      rw [countAux_succ_some hfe]
      obtain ⟨rest, hrest⟩ := emptiesOf_head_of_findEmpty hfe
      have hvne : getCellN c p.1 p.2 ≠ 0 := by
        have := (cell_bounds_of_validComplete hvc hp1 hp2).1
        omega
      have hzc := zeroCountB_setCellN_head hwb hvne hrest
      have hrec := countAux_pos fuel (setCellN b p.1 p.2 (getCellN c p.1 p.2)) c
        (WF_setCellN hwb _ _ _) (by omega) hwc hvc
        (ExtendsB_setCellN_of hwb hbc hp1 hp2 hcell rfl)
      have hle := @le_sum_of_mem nums1to9
        (fun num => if is_valid b p.1 p.2 num then
          countAux fuel (setCellN b p.1 p.2 num) else 0) _
        (cell_mem_nums_of_validComplete hvc hp1 hp2)
      simp only at hle
      rw [if_pos (isValid_of_extends hvc hbc hp1 hp2 hcell)] at hle
      omega

theorem countAux_two : ∀ (fuel : Nat) (b c1 c2 : Board), WF b → zeroCountB b < fuel →
    WF c1 → ValidComplete c1 → ExtendsB b c1 → WF c2 → ValidComplete c2 → ExtendsB b c2 →
    c1 ≠ c2 → 2 ≤ countAux fuel b
  | 0, _, _, _ => by
    intro _ hf _ _ _ _ _ _ _
    omega
  | fuel + 1, b, c1, c2 => by
    intro hwb hf hwc1 hvc1 hbc1 hwc2 hvc2 hbc2 hne
    cases hfe : findEmpty b with
    | none =>
      have hcomp : CompleteB b := findEmpty_eq_none_iff.mp hfe
      have h1 := complete_extends_eq hwb hwc1 hcomp hbc1
      have h2 := complete_extends_eq hwb hwc2 hcomp hbc2
      exact absurd (h1.trans h2.symm) hne
    | some p =>
      obtain ⟨hcell, hp1, hp2⟩ := findEmpty_some hfe
      rw [countAux_succ_some hfe]
      obtain ⟨rest, hrest⟩ := emptiesOf_head_of_findEmpty hfe
      have hv1ne : getCellN c1 p.1 p.2 ≠ 0 := by
        have := (cell_bounds_of_validComplete hvc1 hp1 hp2).1
        omega
      have hzc := zeroCountB_setCellN_head hwb hv1ne hrest
      by_cases hvv : getCellN c1 p.1 p.2 = getCellN c2 p.1 p.2
      · have hrec := countAux_two fuel (setCellN b p.1 p.2 (getCellN c1 p.1 p.2)) c1 c2
          (WF_setCellN hwb _ _ _) (by omega) hwc1 hvc1
          (ExtendsB_setCellN_of hwb hbc1 hp1 hp2 hcell rfl) hwc2 hvc2
          (ExtendsB_setCellN_of hwb hbc2 hp1 hp2 hcell hvv.symm) hne
        have hle := @le_sum_of_mem nums1to9
          (fun num => if is_valid b p.1 p.2 num then
            countAux fuel (setCellN b p.1 p.2 num) else 0) _
          (cell_mem_nums_of_validComplete hvc1 hp1 hp2)
        simp only at hle
        rw [if_pos (isValid_of_extends hvc1 hbc1 hp1 hp2 hcell)] at hle
        omega
      · refine two_le_sum_of_two_mem hvv (cell_mem_nums_of_validComplete hvc1 hp1 hp2)
          (cell_mem_nums_of_validComplete hvc2 hp1 hp2) ?_ ?_
        · rw [if_pos (isValid_of_extends hvc1 hbc1 hp1 hp2 hcell)]
          exact countAux_pos fuel _ c1 (WF_setCellN hwb _ _ _) (by omega) hwc1 hvc1
            (ExtendsB_setCellN_of hwb hbc1 hp1 hp2 hcell rfl)
        · have hv2ne : getCellN c2 p.1 p.2 ≠ 0 := by
            have := (cell_bounds_of_validComplete hvc2 hp1 hp2).1
            omega
          have hzc2 := zeroCountB_setCellN_head hwb hv2ne hrest
          rw [if_pos (isValid_of_extends hvc2 hbc2 hp1 hp2 hcell)]
          exact countAux_pos fuel _ c2 (WF_setCellN hwb _ _ _) (by omega) hwc2 hvc2
            (ExtendsB_setCellN_of hwb hbc2 hp1 hp2 hcell rfl)

theorem unique_completion_of_count_one {P G : Board} (hWP : WF P) (hWG : WF G)
    (hG : ValidComplete G) (hext : ExtendsB P G) (hcount : count_solutions P = 1) :
    ∀ c, WF c → ValidComplete c → ExtendsB P c → c = G := by
  intro c hwc hvc hec
  by_contra hne
  have hzle := zeroCountB_le P
  have h2 := countAux_two 82 P c G hWP (by omega) hwc hvc hec hWG hG hext hne
  rw [count_solutions] at hcount
  omega

theorem ExtendsB_of_bounded {b c : Board} (hb : WF b)
    (h : ∀ i < 9, ∀ j < 9, getCellN b i j ≠ 0 → getCellN c i j = getCellN b i j) :
    ExtendsB b c := by
  intro i j hne
  by_cases hij : i < 9 ∧ j < 9
  · exact h i hij.1 j hij.2 hne
  · exact absurd (getCellN_oob hb (by omega)) hne

/-- Witness for C6 at a concrete input: zeroing cells `(0,0)` and `(0,1)`
of `wGrid` leaves a uniquely completable grid, and the solver restores it. -/
theorem solve_sudoku_unique_completion_witness :
    solve_sudoku 82 wPartial = (true, wGrid) :=
  solve_sudoku_unique_completion wGrid wPartial 82 (by decide) (by decide) (by decide)
    (by decide)
    (unique_completion_of_count_one (by decide) (by decide) (by decide)
      (ExtendsB_of_bounded (by decide) (by decide)) (by decide!))
    (by decide)

/-! ## The carving loop -/

theorem removeLoop_exit (fuel : Nat) (b : Board) (s : RStream) :
    removeLoop fuel b 0 s = some (b, s) := by
  unfold removeLoop
  rw [if_pos rfl]

theorem removeLoop_zero_fuel {ctr : Nat} (h : ctr ≠ 0) (b : Board) (s : RStream) :
    removeLoop 0 b ctr s = none := by
  unfold removeLoop
  rw [if_neg h]

theorem removeLoop_succ {ctr : Nat} (h : ctr ≠ 0) (fuel : Nat) (b : Board) (s : RStream) :
    removeLoop (fuel + 1) b ctr s =
      (if getCellN b (randInt 0 8 s).1 (randInt 0 8 (randInt 0 8 s).2).1 == 0 then
        removeLoop fuel b ctr (randInt 0 8 (randInt 0 8 s).2).2
      else
        if count_solutions (setCellN b (randInt 0 8 s).1
            (randInt 0 8 (randInt 0 8 s).2).1 0) == 1 then
          removeLoop fuel (setCellN b (randInt 0 8 s).1 (randInt 0 8 (randInt 0 8 s).2).1 0)
            (ctr - 1) (randInt 0 8 (randInt 0 8 s).2).2
        else removeLoop fuel b ctr (randInt 0 8 (randInt 0 8 s).2).2) := by
  conv_lhs => unfold removeLoop
  rw [if_neg h]

theorem randInt_0_8_lt (s : RStream) : (randInt 0 8 s).1 < 9 := by
  unfold randInt rNext
  simp only
  omega

theorem getCellN_setCellN_cases (b : Board) (r c v i j : Nat) :
    getCellN (setCellN b r c v) i j = getCellN b i j ∨ getCellN (setCellN b r c v) i j = v := by
  by_cases hij : i = r ∧ j = c
  · obtain ⟨rfl, rfl⟩ := hij
    unfold getCellN setCellN
    rcases Nat.lt_or_ge i b.length with hr | hr
    · rcases Nat.lt_or_ge j (b.getD i []).length with hc | hc
      · right
        have hc2 : j < (b[i]?.getD []).length := by
          rw [← List.getD_eq_getElem?_getD]
          exact hc
        simp only [List.getD_eq_getElem?_getD]
        rw [List.getElem?_set_self hr, Option.getD_some, List.getElem?_set_self hc2,
          Option.getD_some]
      · left
        have hc2 : (b[i]?.getD ([] : List Nat)).length ≤ j := by
          rw [← List.getD_eq_getElem?_getD]
          exact hc
        simp only [List.getD_eq_getElem?_getD]
        rw [List.getElem?_set_self hr, Option.getD_some, List.set_eq_of_length_le hc2]
    · left
      rw [List.set_eq_of_length_le hr]
  · left
    rw [getCellN_setCellN_other b v hij]

theorem removeLoop_zeroing : ∀ (fuel : Nat) (b : Board) (ctr : Nat) (s : RStream)
    (q : Board) (s2 : RStream), removeLoop fuel b ctr s = some (q, s2) →
    ∀ i j, getCellN q i j = getCellN b i j ∨ getCellN q i j = 0
  | fuel, b, ctr, s, q, s2 => by
    intro hrun i j
    by_cases hctr : ctr = 0
    · subst hctr
      rw [removeLoop_exit] at hrun
      injection hrun with h
      injection h with h1 h2
      subst h1
      left
      rfl
    · cases fuel with
      | zero =>
        rw [removeLoop_zero_fuel hctr] at hrun
        cases hrun
      | succ fuel =>
        rw [removeLoop_succ hctr] at hrun
        by_cases hz : (getCellN b (randInt 0 8 s).1 (randInt 0 8 (randInt 0 8 s).2).1 == 0)
          = true
        · rw [if_pos hz] at hrun
          exact removeLoop_zeroing fuel b ctr _ q s2 hrun i j
        · rw [if_neg hz] at hrun
          by_cases hc : (count_solutions (setCellN b (randInt 0 8 s).1
              (randInt 0 8 (randInt 0 8 s).2).1 0) == 1) = true
          · rw [if_pos hc] at hrun
            have hrec := removeLoop_zeroing fuel _ (ctr - 1) _ q s2 hrun i j
            rcases hrec with h | h
            · rcases getCellN_setCellN_cases b (randInt 0 8 s).1
                (randInt 0 8 (randInt 0 8 s).2).1 0 i j with h2 | h2
              · left
                rw [h, h2]
              · right
                rw [h, h2]
            · right
              exact h
          · rw [if_neg hc] at hrun
            exact removeLoop_zeroing fuel b ctr _ q s2 hrun i j

theorem CompleteB_of_validComplete {b : Board} (hv : ValidComplete b) : CompleteB b := by
  intro i hi j hj
  have := (cell_bounds_of_validComplete hv hi hj).1
  omega

theorem nonZeroCount_set_zero {b : Board} (hw : WF b) {i j : Nat} (hi : i < 9) (hj : j < 9)
    (h : getCellN b i j ≠ 0) : nonZeroCount (setCellN b i j 0) + 1 = nonZeroCount b := by
  have h1 := nonZeroCount_add_zeroCountB b
  have h2 := nonZeroCount_add_zeroCountB (setCellN b i j 0)
  have h3 := zeroCountB_set_zero hw hi hj h
  have h4 := zeroCountB_le b
  omega

theorem removeLoop_spec {G : Board} : ∀ (fuel : Nat) (b : Board) (ctr : Nat) (s : RStream)
    (q : Board) (s2 : RStream), WF b →
    (∀ i < 9, ∀ j < 9, getCellN b i j = getCellN G i j ∨ getCellN b i j = 0) →
    removeLoop fuel b ctr s = some (q, s2) →
    WF q ∧ (∀ i < 9, ∀ j < 9, getCellN q i j = getCellN G i j ∨ getCellN q i j = 0) ∧
    nonZeroCount q + ctr = nonZeroCount b ∧ (count_solutions q = 1 ∨ (q = b ∧ ctr = 0))
  | fuel, b, ctr, s, q, s2 => by
    intro hwb hzero hrun
    by_cases hctr : ctr = 0
    · subst hctr
      rw [removeLoop_exit] at hrun
      injection hrun with h
      injection h with h1 h2
      subst h1
      exact ⟨hwb, hzero, by omega, Or.inr ⟨rfl, rfl⟩⟩
    · cases fuel with
      | zero =>
        rw [removeLoop_zero_fuel hctr] at hrun
        cases hrun
      | succ fuel =>
        rw [removeLoop_succ hctr] at hrun
        by_cases hz : (getCellN b (randInt 0 8 s).1 (randInt 0 8 (randInt 0 8 s).2).1 == 0)
          = true
        · rw [if_pos hz] at hrun
          have hrec := removeLoop_spec fuel b ctr _ q s2 hwb hzero hrun
          refine ⟨hrec.1, hrec.2.1, hrec.2.2.1, ?_⟩
          rcases hrec.2.2.2 with h | h
          · exact Or.inl h
          · exact absurd h.2 hctr
        · rw [if_neg hz] at hrun
          by_cases hcnt : (count_solutions (setCellN b (randInt 0 8 s).1
              (randInt 0 8 (randInt 0 8 s).2).1 0) == 1) = true
          · rw [if_pos hcnt] at hrun
            have hr1 := randInt_0_8_lt s
            have hr2 := randInt_0_8_lt (randInt 0 8 s).2
            have hbne : getCellN b (randInt 0 8 s).1 (randInt 0 8 (randInt 0 8 s).2).1 ≠ 0 := by
              intro h0
              rw [h0] at hz
              exact hz rfl
            have hwb0 := WF_setCellN hwb (randInt 0 8 s).1 (randInt 0 8 (randInt 0 8 s).2).1 0
            have hzero0 : ∀ i < 9, ∀ j < 9,
                getCellN (setCellN b (randInt 0 8 s).1 (randInt 0 8 (randInt 0 8 s).2).1 0) i j
                  = getCellN G i j ∨
                getCellN (setCellN b (randInt 0 8 s).1 (randInt 0 8 (randInt 0 8 s).2).1 0) i j
                  = 0 := by
              intro i hi j hj
              rcases getCellN_setCellN_cases b (randInt 0 8 s).1
                  (randInt 0 8 (randInt 0 8 s).2).1 0 i j with h | h
              · rw [h]
                exact hzero i hi j hj
              · exact Or.inr h
            have hrec := removeLoop_spec fuel _ (ctr - 1) _ q s2 hwb0 hzero0 hrun
            have hnz := nonZeroCount_set_zero hwb hr1 hr2 hbne
            refine ⟨hrec.1, hrec.2.1, by omega, ?_⟩
            rcases hrec.2.2.2 with h | h
            · exact Or.inl h
            · left
              rw [h.1]
              exact beq_iff_eq.mp hcnt
          · rw [if_neg hcnt] at hrun
            have hrec := removeLoop_spec fuel b ctr _ q s2 hwb hzero hrun
            refine ⟨hrec.1, hrec.2.1, hrec.2.2.1, ?_⟩
            rcases hrec.2.2.2 with h | h
            · exact Or.inl h
            · exact absurd h.2 hctr

theorem randInt_bounds (lo hi : Nat) (h : lo ≤ hi) (s : RStream) :
    lo ≤ (randInt lo hi s).1 ∧ (randInt lo hi s).1 ≤ hi := by
  unfold randInt rNext
  simp only
  have hm : s 0 % (hi - lo + 1) < hi - lo + 1 := Nat.mod_lt _ (by omega)
  omega

theorem remove_cells_core {G : Board} {d : String} {s : RStream} {fuel : Nat} {q : Board}
    {s2 : RStream} (hwG : WF G) (hG : ValidComplete G)
    (hctr : 81 - (pickClues d s).1 ≠ 0)
    (hres : remove_cells fuel G d s = some (q, s2)) :
    WF q ∧ nonZeroCount q + (81 - (pickClues d s).1) = 81 ∧ count_solutions q = 1 ∧
    (∀ c, WF c → ValidComplete c → ExtendsB q c → c = G) := by
  unfold remove_cells at hres
  have hspec := @removeLoop_spec G fuel G (81 - (pickClues d s).1) (pickClues d s).2 q s2
    hwG (fun i _ j _ => Or.inl rfl) hres
  obtain ⟨hwq, hzero, hcount, hdisj⟩ := hspec
  have hnzG : nonZeroCount G = 81 := nonZeroCount_of_complete (CompleteB_of_validComplete hG)
  have hc1 : count_solutions q = 1 := by
    rcases hdisj with h | h
    · exact h
    · exact absurd h.2 hctr
  refine ⟨hwq, by omega, hc1, ?_⟩
  have hext : ExtendsB q G := ExtendsB_of_bounded hwq (fun i hi j hj hne => by
    rcases hzero i hi j hj with h | h
    · rw [h]
    · exact absurd h hne)
  exact unique_completion_of_count_one hwq hwG hG hext hc1

/-- **C1.**  For every complete valid grid `G` and every recognized
difficulty, any grid `q` returned by `remove_cells` has exactly
`clueTarget` non-zero cells - where `clueTarget` is the value drawn by
`pickClues`, lying in the band easy 45-50 / medium 35-40 / hard 25-30 -
`count_solutions q = 1`, and the unique completion of `q` is `G`. -/
theorem remove_cells_spec (G : Board) (d : String) (s : RStream) (fuel : Nat) (q : Board)
    (hwG : WF G) (hG : ValidComplete G)
    (hd : d = "easy" ∨ d = "medium" ∨ d = "hard")
    (hrun : (remove_cells fuel G d s).map Prod.fst = some q) :
    nonZeroCount q = (pickClues d s).1 ∧
    (d = "easy" → 45 ≤ (pickClues d s).1 ∧ (pickClues d s).1 ≤ 50) ∧
    (d = "medium" → 35 ≤ (pickClues d s).1 ∧ (pickClues d s).1 ≤ 40) ∧
    (d = "hard" → 25 ≤ (pickClues d s).1 ∧ (pickClues d s).1 ≤ 30) ∧
    count_solutions q = 1 ∧
    (∀ c, WF c → ValidComplete c → ExtendsB q c → c = G) := by
  have hle : (pickClues d s).1 ≤ 50 ∧
      (d = "easy" → 45 ≤ (pickClues d s).1 ∧ (pickClues d s).1 ≤ 50) ∧
      (d = "medium" → 35 ≤ (pickClues d s).1 ∧ (pickClues d s).1 ≤ 40) ∧
      (d = "hard" → 25 ≤ (pickClues d s).1 ∧ (pickClues d s).1 ≤ 30) := by
    rcases hd with rfl | rfl | rfl
    · have hp : pickClues "easy" s = randInt 45 50 s := by
        unfold pickClues
        rw [if_pos rfl]
      have hb := randInt_bounds 45 50 (by omega) s
      rw [hp]
      exact ⟨hb.2, fun _ => hb, fun h => absurd h (by decide), fun h => absurd h (by decide)⟩
    · have hp : pickClues "medium" s = randInt 35 40 s := by
        unfold pickClues
        rw [if_neg (by decide), if_pos rfl]
      have hb := randInt_bounds 35 40 (by omega) s
      rw [hp]
      exact ⟨by omega, fun h => absurd h (by decide), fun _ => hb, fun h => absurd h (by decide)⟩
    · have hp : pickClues "hard" s = randInt 25 30 s := by
        unfold pickClues
        rw [if_neg (by decide), if_neg (by decide)]
      have hb := randInt_bounds 25 30 (by omega) s
      rw [hp]
      exact ⟨by omega, fun h => absurd h (by decide), fun h => absurd h (by decide), fun _ => hb⟩
  obtain ⟨r, hres0, hq⟩ : ∃ r, remove_cells fuel G d s = some r ∧ r.1 = q := by
    cases hr : remove_cells fuel G d s with
    | none =>
      rw [hr] at hrun
      cases hrun
    | some r =>
      rw [hr] at hrun
      rw [Option.map_some'] at hrun
      injection hrun with h
      exact ⟨r, rfl, h⟩
  obtain ⟨q2, s2⟩ := r
  have hq2 : q2 = q := hq
  subst hq2
  have hcore := remove_cells_core hwG hG (by omega) hres0
  exact ⟨by have := hcore.2.1; omega, hle.2.1, hle.2.2.1, hle.2.2.2, hcore.2.2.1, hcore.2.2.2⟩

set_option maxRecDepth 100000 in
/-- Witness for C1 at a concrete input: carving `wGrid` at difficulty
`"easy"` under `wCarveStream` yields `wCarved`, with 50 clues and a unique
completion equal to `wGrid`. -/
theorem remove_cells_spec_witness :
    nonZeroCount wCarved = (pickClues "easy" wCarveStream).1 ∧
    ("easy" = "easy" → 45 ≤ (pickClues "easy" wCarveStream).1 ∧
      (pickClues "easy" wCarveStream).1 ≤ 50) ∧
    ("easy" = "medium" → 35 ≤ (pickClues "easy" wCarveStream).1 ∧
      (pickClues "easy" wCarveStream).1 ≤ 40) ∧
    ("easy" = "hard" → 25 ≤ (pickClues "easy" wCarveStream).1 ∧
      (pickClues "easy" wCarveStream).1 ≤ 30) ∧
    count_solutions wCarved = 1 ∧
    (∀ c, WF c → ValidComplete c → ExtendsB wCarved c → c = wGrid) :=
  remove_cells_spec wGrid "easy" wCarveStream 200 wCarved (by decide) (by decide)
    (Or.inl rfl) (by decide!)

/-! ## Carving never touches the stored answer grid (C4) -/

theorem board_to_question_eq (b : Board) : board_to_question b = b := by
  unfold board_to_question
  have hcell : (fun cell : Nat => if cell != 0 then cell else 0) = id := by
    funext cell
    by_cases h : cell = 0
    · simp [h]
    · simp [h]
  have hrow : (fun row : List Nat => row.map fun cell => if cell != 0 then cell else 0) = id := by
    funext row
    rw [hcell, List.map_id]
    rfl
  rw [hrow, List.map_id]

/-- **C4.**  `carve` does not mutate the complete grid: the answer grid in
the pair returned by `generate_sudoku_puzzle` is element-wise the complete
grid produced before carving, and the question is a separate grid that
differs from it only by zeroed cells. -/
theorem generate_sudoku_puzzle_no_mutation (fuel : Nat) (d : String) (s : RStream)
    (q a : Board)
    (hrun : (generate_sudoku_puzzle fuel d s).map Prod.fst = some (q, a)) :
    a = (generate_complete_sudoku fuel s).1 ∧
    (∀ i j, getCellN q i j = getCellN a i j ∨ getCellN q i j = 0) := by
  have hrun2 : Option.map Prod.fst
      (match remove_cells fuel (generate_complete_sudoku fuel s).1 d
          (generate_complete_sudoku fuel s).2 with
        | none => none
        | some (puzzle, s0) =>
          some ((board_to_question puzzle, (generate_complete_sudoku fuel s).1), s0)) =
      some (q, a) := hrun
  clear hrun
  cases hr : remove_cells fuel (generate_complete_sudoku fuel s).1 d
      (generate_complete_sudoku fuel s).2 with
  | none =>
    rw [hr] at hrun2
    cases hrun2
  | some r =>
    obtain ⟨puzzle, s2⟩ := r
    rw [hr, Option.map_some'] at hrun2
    injection hrun2 with h
    injection h with h1 h2
    subst h2
    subst h1
    refine ⟨rfl, ?_⟩
    unfold remove_cells at hr
    have hz := removeLoop_zeroing fuel _ _ _ _ _ hr
    intro i j
    rw [board_to_question_eq]
    exact hz i j

set_option maxRecDepth 100000 in
/-- Witness for C4 at a concrete input: running the full pipeline under
`wPipeStream`, the answer grid of the returned pair is exactly the
complete grid produced before carving, and the question differs from it
only by zeroed cells. -/
theorem generate_sudoku_puzzle_no_mutation_witness :
    wPipeAnswer = (generate_complete_sudoku 200 wPipeStream).1 ∧
    (∀ i j, getCellN wPipeQuestion i j = getCellN wPipeAnswer i j ∨
      getCellN wPipeQuestion i j = 0) :=
  generate_sudoku_puzzle_no_mutation 200 "easy" wPipeStream wPipeQuestion wPipeAnswer
    (by decide!)

/-! ## Injectivity of the decimal key index -/

theorem chVal_digitChar {m : Nat} (h : m < 10) : chVal (Nat.digitChar m) = m := by
  interval_cases m <;> rfl

theorem toDigitsCore_append : ∀ (fuel n : Nat) (ds : List Char),
    Nat.toDigitsCore 10 fuel n ds = Nat.toDigitsCore 10 fuel n [] ++ ds
  | 0, n, ds => rfl
  | fuel + 1, n, ds => by
    simp only [Nat.toDigitsCore]
    by_cases h : n / 10 = 0
    · rw [if_pos h, if_pos h]
      rfl
    · rw [if_neg h, if_neg h, toDigitsCore_append fuel (n / 10) [Nat.digitChar (n % 10)],
        toDigitsCore_append fuel (n / 10) (Nat.digitChar (n % 10) :: ds)]
      simp

theorem toDigitsCore_fuel : ∀ (f1 f2 n : Nat) (ds : List Char), n < 10 ^ (f1 + 1) →
    n < 10 ^ (f2 + 1) →
    Nat.toDigitsCore 10 (f1 + 1) n ds = Nat.toDigitsCore 10 (f2 + 1) n ds
  | 0, f2, n, ds => by
    intro h1 h2
    have hn : n / 10 = 0 := by omega
    simp only [Nat.toDigitsCore]
    rw [if_pos hn]
    cases f2 with
    | zero => rw [if_pos hn]
    | succ f2 =>
      rw [if_pos hn]
  | f1 + 1, f2, n, ds => by
    intro h1 h2
    by_cases hn : n / 10 = 0
    · simp only [Nat.toDigitsCore]
      rw [if_pos hn]
      cases f2 with
      | zero => rw [if_pos hn]
      | succ f2 => rw [if_pos hn]
    · cases f2 with
      | zero =>
        have : n < 10 := by
          have : (10 : Nat) ^ (0 + 1) = 10 := by norm_num
          omega
        omega
      | succ f2 =>
        simp only [Nat.toDigitsCore]
        rw [if_neg hn, if_neg hn]
        have hb1 : n / 10 < 10 ^ (f1 + 1) := by
          have hp : (10 : Nat) ^ (f1 + 1 + 1) = 10 ^ (f1 + 1) * 10 := by ring
          rw [hp] at h1
          omega
        have hb2 : n / 10 < 10 ^ (f2 + 1) := by
          have hp : (10 : Nat) ^ (f2 + 1 + 1) = 10 ^ (f2 + 1) * 10 := by ring
          rw [hp] at h2
          omega
        cases hf1 : f1 with
        | zero =>
          cases hf2 : f2 with
          | zero => rfl
          | succ g2 =>
            subst hf1
            subst hf2
            exact toDigitsCore_fuel 0 (g2 + 1) (n / 10) _ hb1 hb2
        | succ g1 =>
          subst hf1
          exact toDigitsCore_fuel (g1 + 1) f2 (n / 10) _ hb1 hb2

theorem valAcc_append (a : Nat) (l1 l2 : List Char) :
    valAcc a (l1 ++ l2) = valAcc (valAcc a l1) l2 := by
  unfold valAcc
  rw [List.foldl_append]

theorem valAcc_toDigits : ∀ n : Nat, valAcc 0 (Nat.toDigits 10 n) = n := by
  intro n
  induction n using Nat.strong_induction_on with
  | _ n ih =>
    by_cases h : n < 10
    · have hdiv : n / 10 = 0 := by omega
      unfold Nat.toDigits
      simp only [Nat.toDigitsCore]
      rw [if_pos hdiv]
      unfold valAcc
      simp only [List.foldl_cons, List.foldl_nil]
      rw [chVal_digitChar (by omega)]
      omega
    · have hdiv : n / 10 ≠ 0 := by omega
      unfold Nat.toDigits
      simp only [Nat.toDigitsCore]
      rw [if_neg hdiv]
      have hb1 : n / 10 < 10 ^ (n - 1 + 1) := by
        rw [show n - 1 + 1 = n from by omega]
        calc n / 10 < n := Nat.div_lt_self (by omega) (by omega)
          _ < 10 ^ n := Nat.lt_pow_self (by omega) n
      have hb2 : n / 10 < 10 ^ (n / 10 + 1) := by
        calc n / 10 < 10 ^ (n / 10) := Nat.lt_pow_self (by omega) _
          _ ≤ 10 ^ (n / 10 + 1) := Nat.pow_le_pow_right (by omega) (by omega)
      have hstep := toDigitsCore_fuel (n - 1) (n / 10) (n / 10)
        [Nat.digitChar (n % 10)] hb1 hb2
      rw [show n - 1 + 1 = n from by omega] at hstep
      rw [hstep, toDigitsCore_append, valAcc_append]
      have hdef : Nat.toDigitsCore 10 (n / 10 + 1) (n / 10) [] = Nat.toDigits 10 (n / 10) := rfl
      rw [hdef, ih (n / 10) (Nat.div_lt_self (by omega) (by omega))]
      unfold valAcc
      simp only [List.foldl_cons, List.foldl_nil]
      rw [chVal_digitChar (Nat.mod_lt n (by omega))]
      omega

theorem natRepr_injective {m n : Nat} (h : Nat.repr m = Nat.repr n) : m = n := by
  have hd : Nat.toDigits 10 m = Nat.toDigits 10 n := congrArg String.data h
  have hm := valAcc_toDigits m
  have hn := valAcc_toDigits n
  rw [← hm, ← hn, hd]

theorem key_injective {m n : Nat}
    (h : ("sdku-v1-q" ++ Nat.repr m) = ("sdku-v1-q" ++ Nat.repr n)) : m = n := by
  apply natRepr_injective
  have hdata := congrArg String.data h
  rw [String.data_append, String.data_append] at hdata
  have h2 : (Nat.repr m).data = (Nat.repr n).data := List.append_cancel_left hdata
  exact congrArg String.mk h2

/-! ## The record set (C8) -/

/-- The loop of `generate_sudoku_set` produces, on success, one record per
iteration, keyed `"sdku-v1-q" ++ i`, `i + 1`, ... in insertion order, each
carrying the requested difficulty. -/
theorem setLoop_spec (fuel : Nat) (d : String) : ∀ (n i : Nat) (s : RStream)
    (res : List (String × PuzzleRecord)) (s2 : RStream),
    setLoop fuel d n i s = some (res, s2) →
    res.length = n ∧
    res.map Prod.fst = (List.range n).map (fun k => "sdku-v1-q" ++ Nat.repr (i + k)) ∧
    ∀ r ∈ res, r.2.2.2 = d := by
  intro n
  induction n with
  | zero =>
    intro i s res s2 h
    simp only [setLoop, Option.some.injEq, Prod.mk.injEq] at h
    obtain ⟨h1, h2⟩ := h
    subst h1
    simp
  | succ n ih =>
    intro i s res s2 h
    simp only [setLoop] at h
    cases hg : generate_sudoku_puzzle fuel d s with
    | none => rw [hg] at h; exact absurd h (by simp)
    | some v =>
      rw [hg] at h
      obtain ⟨qa, s2x⟩ := v
      have hm : (match setLoop fuel d n (i + 1) s2x with
          | none => none
          | some (rest, s3) =>
            some (("sdku-v1-q" ++ Nat.repr i, qa.1, qa.2, d) :: rest, s3)) =
          some (res, s2) := h
      clear h
      cases hrest : setLoop fuel d n (i + 1) s2x with
      | none => rw [hrest] at hm; exact absurd hm (by simp)
      | some w =>
        rw [hrest] at hm
        obtain ⟨rest, s3⟩ := w
        simp only [Option.some.injEq, Prod.mk.injEq] at hm
        obtain ⟨h1, h2⟩ := hm
        obtain ⟨hl, hk, hd2⟩ := ih (i + 1) s2x rest s3 hrest
        subst h1
        refine ⟨by simp [hl], ?_, ?_⟩
        · rw [List.range_succ_eq_map]
          simp only [List.map_cons, List.map_map]
          congr 1
          rw [hk]
          apply List.map_congr_left
          intro a ha
          simp only [Function.comp]
          rw [show i + 1 + a = i + a.succ from by omega]
        · intro r hr
          rcases List.mem_cons.mp hr with h | h
          · rw [h]
          · exact hd2 r h

/-- **C8**: for a positive `count` and a recognized difficulty, a successful
run of `generate_sudoku_set` returns exactly `count` records, each carrying
difficulty `d`, with keys `"sdku-v1-q1", "sdku-v1-q2", ...` in insertion
order, pairwise distinct. -/
theorem generate_sudoku_set_records (fuel : Nat) (count : Int) (d : String)
    (s : RStream) (res : List (String × PuzzleRecord))
    (hpos : 0 < count)
    (hd : d = "easy" ∨ d = "medium" ∨ d = "hard")
    (hrun : (generate_sudoku_set fuel count d s).map Prod.fst = some res) :
    res.length = count.toNat ∧
    (∀ r ∈ res, r.2.2.2 = d) ∧
    res.map Prod.fst = (List.range count.toNat).map (fun k => "sdku-v1-q" ++ Nat.repr (1 + k)) ∧
    (res.map Prod.fst).Nodup := by
  cases hg : generate_sudoku_set fuel count d s with
  | none => rw [hg] at hrun; exact absurd hrun (by simp)
  | some v =>
    rw [hg] at hrun
    obtain ⟨res0, s2⟩ := v
    simp only [Option.map_some', Option.some.injEq] at hrun
    subst hrun
    obtain ⟨hl, hk, hdf⟩ := setLoop_spec fuel d count.toNat 1 s res0 s2 hg
    refine ⟨hl, hdf, hk, ?_⟩
    rw [hk]
    have hinj : Function.Injective (fun k => "sdku-v1-q" ++ Nat.repr (1 + k)) := by
      intro a b hab
      have := key_injective hab
      omega
    exact (List.nodup_range count.toNat).map hinj

set_option maxRecDepth 100000 in
set_option synthInstance.maxSize 2000 in
/-- Witness for C8 at a concrete input: one record generated under
`wPipeStream` with difficulty `easy`. -/
theorem generate_sudoku_set_records_witness :
    ([("sdku-v1-q1", ((wPipeQuestion, wPipeAnswer, "easy") : PuzzleRecord))].length =
      (1 : Int).toNat) ∧
    (∀ r ∈ [("sdku-v1-q1", ((wPipeQuestion, wPipeAnswer, "easy") : PuzzleRecord))],
      r.2.2.2 = "easy") ∧
    [("sdku-v1-q1", ((wPipeQuestion, wPipeAnswer, "easy") : PuzzleRecord))].map Prod.fst =
      (List.range (1 : Int).toNat).map (fun k => "sdku-v1-q" ++ Nat.repr (1 + k)) ∧
    ([("sdku-v1-q1", ((wPipeQuestion, wPipeAnswer, "easy") : PuzzleRecord))].map
      Prod.fst).Nodup :=
  generate_sudoku_set_records 200 1 "easy" wPipeStream
    [("sdku-v1-q1", (wPipeQuestion, wPipeAnswer, "easy"))]
    (by decide) (Or.inl rfl) (by decide!)

/-! ## No input validation in `generate_sudoku_set` (C3) -/

/-- **C3** (counterexample to the claim as stated): `count = 0` is
non-positive, yet `generate_sudoku_set` surfaces no error — the
`range(1, count + 1)` loop is simply empty, so the call succeeds with an
empty mapping. -/
theorem generate_sudoku_set_zero_count_no_error :
    generate_sudoku_set 100 0 "easy" wCarveStream = some ([], wCarveStream) := rfl

/-- **C3** (amended): `generate_sudoku_set` performs no input validation at
all.  For a non-positive `count` the generation loop body never runs and the
call returns a successful empty mapping with the random stream untouched;
no error is surfaced to the caller.  (Unrecognized difficulty labels are not
rejected here either: they are passed through to `remove_cells`, which
treats them as `hard`; only the CLI entry point checks the label.) -/
theorem generate_sudoku_set_nonpositive (fuel : Nat) (count : Int) (d : String)
    (s : RStream) (h : count ≤ 0) :
    generate_sudoku_set fuel count d s = some ([], s) := by
  unfold generate_sudoku_set
  rw [Int.toNat_of_nonpos h]
  rfl

/-- Witness for the amended C3 at a concrete input: `count = -3`. -/
theorem generate_sudoku_set_nonpositive_witness :
    generate_sudoku_set 100 (-3) "easy" wCarveStream = some ([], wCarveStream) :=
  generate_sudoku_set_nonpositive 100 (-3) "easy" wCarveStream (by decide)

/-! ## The completion pass is the solver on seeded boards (C5) -/

theorem tryNums_congr {recur1 recur2 : Board → Bool × Board} {b : Board}
    {p : Nat × Nat} (hp0 : getCellN b p.1 p.2 = 0)
    (hres : ∀ c, (recur1 c).1 = false → (recur1 c).2 = c) :
    ∀ l : List Nat, (∀ v ∈ l,
      recur1 (setCellN b p.1 p.2 v) = recur2 (setCellN b p.1 p.2 v)) →
    tryNums recur1 b p l = tryNums recur2 b p l
  | [], _ => rfl
  | v :: rest, hsame => by
    by_cases hv : is_valid b p.1 p.2 v = true
    · cases hrec : recur1 (setCellN b p.1 p.2 v) with
      | mk success b2 =>
        have hrec2 : recur2 (setCellN b p.1 p.2 v) = (success, b2) := by
          rw [← hsame v (List.mem_cons_self v rest), hrec]
        cases success with
        | true =>
          rw [tryNums_cons_valid_true hv hrec, tryNums_cons_valid_true hv hrec2]
        | false =>
          have hb2 : b2 = setCellN b p.1 p.2 v := by
            have h2 := hres (setCellN b p.1 p.2 v) (by rw [hrec])
            rw [hrec] at h2
            exact h2
          rw [tryNums_cons_valid_false hv hrec, tryNums_cons_valid_false hv hrec2,
            hb2, setCellN_setCellN, setCellN_self hp0]
          exact tryNums_congr hp0 hres rest
            (fun w hw => hsame w (List.mem_cons_of_mem v hw))
    · have hvf : is_valid b p.1 p.2 v = false := by simpa using hv
      rw [tryNums_cons_invalid hvf, tryNums_cons_invalid hvf]
      exact tryNums_congr hp0 hres rest
        (fun w hw => hsame w (List.mem_cons_of_mem v hw))

theorem solve_sudoku_eq_solveList : ∀ (fuel : Nat) (b : Board), WF b →
    (emptiesOf b).length < fuel →
    solve_sudoku fuel b = solveList (emptiesOf b) b
  | 0, b, _, hfl => absurd hfl (by omega)
  | fuel + 1, b, hb, hfl => by
    cases hfe : findEmpty b with
    | none =>
      have he : emptiesOf b = [] := by
        have hh := hfe
        rw [findEmpty_eq_head?] at hh
        cases hemp : emptiesOf b with
        | nil => rfl
        | cons q rest => rw [hemp] at hh; exact absurd hh (by simp)
      rw [solve_sudoku_succ_none hfe, he]
      rfl
    | some p =>
      have hh := hfe
      rw [findEmpty_eq_head?] at hh
      obtain ⟨rest, he⟩ : ∃ rest, emptiesOf b = p :: rest := by
        cases hemp : emptiesOf b with
        | nil => rw [hemp] at hh; exact absurd hh (by simp)
        | cons q rest =>
          rw [hemp] at hh
          simp only [List.head?_cons, Option.some.injEq] at hh
          exact ⟨rest, by rw [hh]⟩
      have hp0 : getCellN b p.1 p.2 = 0 := (findEmpty_some hfe).1
      rw [solve_sudoku_succ_some hfe, he]
      show tryNums (solve_sudoku fuel) b p nums1to9 = tryNums (solveList rest) b p nums1to9
      apply tryNums_congr hp0 (fun c => solve_sudoku_restore fuel c) nums1to9
      intro v hv
      have hv0 : v ≠ 0 := by
        have h9 := mem_nums1to9.mp hv
        omega
      have hWF2 : WF (setCellN b p.1 p.2 v) := WF_setCellN hb p.1 p.2 v
      have hemp2 : emptiesOf (setCellN b p.1 p.2 v) = rest :=
        emptiesOf_setCellN_head hb hv0 he
      have hlen2 : (emptiesOf (setCellN b p.1 p.2 v)).length < fuel := by
        rw [hemp2]
        have : (emptiesOf b).length = rest.length + 1 := by rw [he]; rfl
        omega
      rw [solve_sudoku_eq_solveList fuel _ hWF2 hlen2, hemp2]

theorem fill_remaining_eq_solveList : ∀ (fuel i j : Nat) (l : List (Nat × Nat)),
    skipOrder fuel i j = some l → ∀ b, fill_remaining fuel b i j = solveList l b
  | fuel + 1, i, j, l, h => by
    intro b
    cases hfs : fillStep i j with
    | none =>
      have h2 : (match fillStep i j with
          | none => some ([] : List (Nat × Nat))
          | some q => (skipOrder fuel q.1 (q.2 + 1)).map (q :: ·)) = some l := h
      rw [hfs] at h2
      have hl : l = [] := by
        injection h2 with h3
        rw [← h3]
      show (match fillStep i j with
        | none => (true, b)
        | some q => tryNums (fun b2 => fill_remaining fuel b2 q.1 (q.2 + 1)) b q nums1to9) =
        solveList l b
      rw [hfs, hl]
      rfl
    | some q =>
      have h2 : (match fillStep i j with
          | none => some ([] : List (Nat × Nat))
          | some q => (skipOrder fuel q.1 (q.2 + 1)).map (q :: ·)) = some l := h
      rw [hfs] at h2
      have h3 : Option.map (fun x => q :: x) (skipOrder fuel q.1 (q.2 + 1)) = some l := h2
      cases hso : skipOrder fuel q.1 (q.2 + 1) with
      | none => rw [hso] at h3; exact absurd h3 (by simp)
      | some l2 =>
        rw [hso, Option.map_some'] at h3
        injection h3 with h4
        subst h4
        show (match fillStep i j with
          | none => (true, b)
          | some q => tryNums (fun b2 => fill_remaining fuel b2 q.1 (q.2 + 1)) b q nums1to9) =
          solveList (q :: l2) b
        rw [hfs]
        show tryNums (fun b2 => fill_remaining fuel b2 q.1 (q.2 + 1)) b q nums1to9 =
          tryNums (solveList l2) b q nums1to9
        congr 1
        funext b2
        exact fill_remaining_eq_solveList fuel q.1 (q.2 + 1) l2 hso b2

theorem skipOrder_mono : ∀ (fuel i j : Nat) (l : List (Nat × Nat)),
    skipOrder fuel i j = some l → skipOrder (fuel + 1) i j = some l
  | fuel + 1, i, j, l, h => by
    have h2 : (match fillStep i j with
        | none => some ([] : List (Nat × Nat))
        | some q => (skipOrder fuel q.1 (q.2 + 1)).map (q :: ·)) = some l := h
    show (match fillStep i j with
      | none => some ([] : List (Nat × Nat))
      | some q => (skipOrder (fuel + 1) q.1 (q.2 + 1)).map (q :: ·)) = some l
    cases hfs : fillStep i j with
    | none => rw [hfs] at h2; exact h2
    | some q =>
      rw [hfs] at h2
      have h3 : Option.map (fun x => q :: x) (skipOrder fuel q.1 (q.2 + 1)) = some l := h2
      show Option.map (fun x => q :: x) (skipOrder (fuel + 1) q.1 (q.2 + 1)) = some l
      cases hso : skipOrder fuel q.1 (q.2 + 1) with
      | none => rw [hso] at h3; exact absurd h3 (by simp)
      | some l2 =>
        rw [skipOrder_mono fuel q.1 (q.2 + 1) l2 hso]
        rw [hso] at h3
        exact h3

set_option maxRecDepth 10000 in
theorem skipOrder_55 : skipOrder 55 0 3 = some nonDiagList := by decide

theorem skipOrder_of_ge : ∀ {fuel : Nat}, 55 ≤ fuel → skipOrder fuel 0 3 = some nonDiagList := by
  intro fuel h
  induction fuel with
  | zero => omega
  | succ n ih =>
    rcases Nat.lt_or_ge n 55 with hn | hn
    · have : n + 1 = 55 := by omega
      rw [this]
      exact skipOrder_55
    · exact skipOrder_mono n 0 3 nonDiagList (ih hn)

set_option maxRecDepth 10000 in
theorem nonDiagList_length : nonDiagList.length = 54 := by decide

theorem emptiesOf_diagSeeded {b : Board} (hd : DiagSeeded b) :
    emptiesOf b = nonDiagList := by
  unfold emptiesOf nonDiagList
  apply List.filter_congr
  intro p hp
  obtain ⟨hp1, hp2⟩ := mem_posListN.mp hp
  by_cases hq : p.1 / 3 = p.2 / 3
  · have hk : p.1 / 3 < 3 := by omega
    have hmem : getCellN b p.1 p.2 ∈ boxListB b (p.1 / 3) (p.1 / 3) := by
      unfold boxListB
      apply List.mem_flatMap.mpr
      refine ⟨p.1 % 3, by simp [List.mem_range]; omega, ?_⟩
      apply List.mem_map.mpr
      refine ⟨p.2 % 3, by simp [List.mem_range]; omega, ?_⟩
      have e1 : 3 * (p.1 / 3) + p.1 % 3 = p.1 := by omega
      have e2 : 3 * (p.1 / 3) + p.2 % 3 = p.2 := by omega
      rw [e1, e2]
    have hmem2 : getCellN b p.1 p.2 ∈ nums1to9 :=
      (hd.1 (p.1 / 3) hk).mem_iff.mp hmem
    have hne : getCellN b p.1 p.2 ≠ 0 := by
      have h9 := mem_nums1to9.mp hmem2
      omega
    have l1 : (getCellN b p.1 p.2 == 0) = false := beq_eq_false_iff_ne.mpr hne
    have l2 : (p.1 / 3 == p.2 / 3) = true := beq_iff_eq.mpr hq
    rw [l1, l2]
    rfl
  · have hz : getCellN b p.1 p.2 = 0 := hd.2 p.1 hp1 p.2 hp2 hq
    have l1 : (getCellN b p.1 p.2 == 0) = true := beq_iff_eq.mpr hz
    have l2 : (p.1 / 3 == p.2 / 3) = false := beq_eq_false_iff_ne.mpr hq
    rw [l1, l2]
    rfl

/-- **C5**: on a well-formed board whose non-zero cells are exactly the
three diagonal boxes, each holding a permutation of `1..9`, the completion
pass `fill_remaining b 0 3` of `generate_complete_sudoku` computes exactly
what the solver `solve_sudoku` computes on a copy of the same board: the
same success flag and the same final board. -/
theorem fill_remaining_refines_solver (fuel : Nat) (b : Board) (hb : WF b)
    (hd : DiagSeeded b) (hfuel : 55 ≤ fuel) :
    fill_remaining fuel b 0 3 = solve_sudoku fuel b := by
  have hemp : emptiesOf b = nonDiagList := emptiesOf_diagSeeded hd
  have hlen : (emptiesOf b).length < fuel := by
    rw [hemp, nonDiagList_length]
    omega
  have hA : solve_sudoku fuel b = solveList nonDiagList b := by
    rw [solve_sudoku_eq_solveList fuel b hb hlen, hemp]
  have hB : fill_remaining fuel b 0 3 = solveList nonDiagList b :=
    fill_remaining_eq_solveList fuel 0 3 nonDiagList (skipOrder_of_ge hfuel) b
  rw [hB, hA]

set_option maxRecDepth 10000 in
/-- Witness for C5 at a concrete input: the diagonal seeding drawn from
`wGrid`. -/
theorem fill_remaining_refines_solver_witness :
    fill_remaining 55 wSeed 0 3 = solve_sudoku 55 wSeed :=
  fill_remaining_refines_solver 55 wSeed (by decide) (by decide) (by decide)
